import Mathlib

/-!
Verification development for the site-scoped dead-link checker
(`deadlink.py`, class `AccurateLinkChecker`).

The development shallowly embeds the parts of the program that the
specification talks about:

* the URL canonicalizer `normalize_url` (built on a model of CPython's
  `urllib.parse.urlsplit` / `urlunsplit` / `unquote` and `str.lower`,
  restricted to the ASCII fragment: multi-byte UTF-8 recombination in
  `unquote` and non-ASCII case mapping are not modelled),
* the link-resolution pipeline of `extract_links` (the raw href/loc
  harvesting done by BeautifulSoup / ElementTree is abstracted as an
  input list of raw link strings; the resolution, normalization and
  scope-filter steps are modelled from the source),
* the retry logic of `handle_request` (the network is abstracted as an
  oracle assigning an outcome to every attempt),
* the concurrent worker pool of `worker` / `run` as a small-step
  transition system: every lock-guarded block of the source is one
  atomic step, everything between lock acquisitions is a separate step.
-/

/-! ## Characters and elementary string operations -/

/-- Characters removed everywhere by CPython `urlsplit`
(`_UNSAFE_URL_BYTES_TO_REMOVE` is tab, carriage return, newline). -/
def isTabCrLf (c : Char) : Bool :=
  c = '\t' || c = '\r' || c = '\n'

/-- WHATWG C0-control-or-space class, lstripped by CPython `urlsplit`. -/
def isC0OrSpace (c : Char) : Bool :=
  c.toNat ≤ 32

/-- Model of Python `str.lower` on a single character (ASCII fragment). -/
def pyLower (c : Char) : Char :=
  if 65 ≤ c.toNat ∧ c.toNat ≤ 90 then Char.ofNat (c.toNat + 32) else c

/-- Model of Python `str.lower` on a character list. -/
def toLowerL (l : List Char) : List Char :=
  l.map pyLower

/-- Characters allowed in a URL scheme after the first one
(CPython `scheme_chars`: letters, digits, `+`, `-`, `.`). -/
def schemeChar (c : Char) : Bool :=
  c.isAlphanum || c = '+' || c = '-' || c = '.'

/-- Split a list at the first occurrence of `t`; `none` if `t` is absent. -/
def splitOnFirst (t : Char) : List Char → Option (List Char × List Char)
  | [] => none
  | c :: rest =>
    if c = t then some ([], rest)
    else (splitOnFirst t rest).map (fun p => (c :: p.1, p.2))

/-- Value of a hexadecimal digit, as used by `unquote`. -/
def hexVal (c : Char) : Option Nat :=
  if 48 ≤ c.toNat ∧ c.toNat ≤ 57 then some (c.toNat - 48)
  else if 65 ≤ c.toNat ∧ c.toNat ≤ 70 then some (c.toNat - 55)
  else if 97 ≤ c.toNat ∧ c.toNat ≤ 102 then some (c.toNat - 87)
  else none

/-- Model of `urllib.parse.unquote` on the ASCII fragment: each valid
`%XY` hex escape is replaced by the character with code `16*X + Y`;
invalid escapes are kept verbatim (CPython keeps the `%` and rescans
from the following character). -/
def unquoteL : List Char → List Char
  | [] => []
  | '%' :: a :: b :: rest2 =>
    match hexVal a, hexVal b with
    | some ha, some hb => Char.ofNat (16 * ha + hb) :: unquoteL rest2
    | _, _ => '%' :: unquoteL (a :: b :: rest2)
  | c :: rest => c :: unquoteL rest

/-- Model of Python `str.rstrip('/')`: drop every trailing slash. -/
def rstripSlash (l : List Char) : List Char :=
  (l.reverse.dropWhile (fun c => c = '/')).reverse

/-! ## Model of `urllib.parse.urlsplit` / `urlunsplit` (CPython 3.11) -/

/-- Result of `urlsplit`. -/
structure SplitUrl where
  scheme : List Char
  netloc : List Char
  path : List Char
  query : List Char
  fragment : List Char
deriving DecidableEq, Repr

/-- A valid scheme name: nonempty, leading ASCII letter, all further
characters in `scheme_chars` (the `i > 0` and character checks of
CPython `urlsplit`). -/
def validSchemeName (l : List Char) : Bool :=
  match l with
  | [] => false
  | c :: rest => c.isAlpha && rest.all schemeChar

/-- Scheme-splitting step of `urlsplit`: cut at the first `:` when the
prefix is a valid scheme name; the scheme is lowercased at split time. -/
def splitScheme (l : List Char) : List Char × List Char :=
  match splitOnFirst ':' l with
  | none => ([], l)
  | some (pre, post) =>
    if validSchemeName pre then (toLowerL pre, post) else ([], l)

/-- Characters ending the netloc (`_splitnetloc` stops at `/`, `?`, `#`). -/
def netlocDelim (c : Char) : Bool :=
  c = '/' || c = '?' || c = '#'

/-- Netloc-splitting step of `urlsplit`: only applies after a leading
`//`; the netloc runs until the first of `/`, `?`, `#`. -/
def splitNetloc (l : List Char) : List Char × List Char :=
  match l with
  | '/' :: '/' :: r =>
    (r.takeWhile (fun c => !netlocDelim c), r.dropWhile (fun c => !netlocDelim c))
  | _ => ([], l)

/-- Fragment-splitting step of `urlsplit`: cut at the first `#`. -/
def splitFragment (l : List Char) : List Char × List Char :=
  match splitOnFirst '#' l with
  | some p => p
  | none => (l, [])

/-- Query-splitting step of `urlsplit`: cut at the first `?`. -/
def splitQuery (l : List Char) : List Char × List Char :=
  match splitOnFirst '?' l with
  | some p => p
  | none => (l, [])

/-- Input cleanup of `urlsplit`: lstrip C0-controls and spaces, then
remove every tab, carriage return and newline. -/
def preClean (l : List Char) : List Char :=
  (l.dropWhile isC0OrSpace).filter (fun c => !isTabCrLf c)

/-- Model of `urllib.parse.urlsplit` (fragments allowed, ASCII fragment;
the IPv6-bracket and netloc validation errors of CPython are not
modelled: they raise instead of returning). -/
def urlsplitL (l0 : List Char) : SplitUrl :=
  let l := preClean l0
  let sp := splitScheme l
  let np := splitNetloc sp.2
  let fp := splitFragment np.2
  let qp := splitQuery fp.1
  ⟨sp.1, np.1, qp.1, qp.2, fp.2⟩

/-- Model of `urllib.parse.urlunsplit`. -/
def urlunsplitL (u : SplitUrl) : List Char :=
  let url :=
    if u.netloc ≠ [] ∨ u.path.take 2 = ['/', '/'] then
      ('/' :: '/' :: u.netloc) ++
        (if u.path ≠ [] ∧ u.path.take 1 ≠ ['/'] then '/' :: u.path else u.path)
    else u.path
  let url := if u.scheme ≠ [] then u.scheme ++ ':' :: url else url
  let url := if u.query ≠ [] then url ++ '?' :: u.query else url
  if u.fragment ≠ [] then url ++ '#' :: u.fragment else url

/-! ## `AccurateLinkChecker.normalize_url` and friends -/

/-- `AccurateLinkChecker.normalize_url` on character lists:
`urlsplit`, reassemble with the trailing slashes of the path stripped
and the fragment dropped, then `unquote` and `.lower()` the result. -/
def normalizeUrlL (l : List Char) : List Char :=
  let u := urlsplitL l
  let cleaned := urlunsplitL ⟨u.scheme, u.netloc, rstripSlash u.path, u.query, []⟩
  toLowerL (unquoteL cleaned)

/-- `AccurateLinkChecker.normalize_url`. -/
def normalize_url (s : String) : String :=
  ⟨normalizeUrlL s.data⟩

/-- Full lowercasing of a string (model of Python `str.lower`). -/
def pyLowerStr (s : String) : String :=
  ⟨toLowerL s.data⟩

/-- Host part of a URL: `urlparse(url).netloc.split(':')[0]`. -/
def hostOf (s : String) : String :=
  let n := (urlsplitL s.data).netloc
  match splitOnFirst ':' n with
  | some p => ⟨p.1⟩
  | none => ⟨n⟩

/-- `AccurateLinkChecker.is_internal_link`, with the checker's
`base_domain` passed explicitly. -/
def is_internal_link (baseDomain : String) (url : String) : Bool :=
  hostOf url = baseDomain

example : normalize_url "http://Site.com/A/" = "http://site.com/a" := by decide
example : normalize_url "https://example.com/a?" = "https://example.com/a" := by decide
example : hostOf "http://site.com:8080/x" = "site.com" := by decide
example : normalize_url "http://a/%2541" = "http://a/%41" := by decide

/-! ## Model of `urllib.parse.urljoin` (CPython 3.11)

The `params` component (split from the last path segment by `urlparse`)
is not modelled, and the reference scheme is assumed to belong to
`uses_relative` and `uses_netloc` (true for `http`, `https` and the
empty scheme, the cases arising in this program). -/

/-- Python `str.split('/')`. -/
def splitSlash : List Char → List (List Char)
  | [] => [[]]
  | '/' :: rest => [] :: splitSlash rest
  | c :: rest =>
    match splitSlash rest with
    | h :: t => (c :: h) :: t
    | [] => [[c]]

/-- `segments[1:-1] = filter(None, segments[1:-1])`: drop empty
segments, keeping the first and last ones. -/
def mergeMiddle : List (List Char) → List (List Char)
  | [] => []
  | [x] => [x]
  | x :: rest =>
    match rest.getLast? with
    | some last => x :: (rest.dropLast.filter (fun s => !s.isEmpty) ++ [last])
    | none => [x]

/-- Dot-segment resolution loop of `urljoin`: `..` pops (ignoring
underflow), `.` is skipped, anything else is appended. -/
def resolveDots (segs : List (List Char)) : List (List Char) :=
  segs.foldl
    (fun acc seg =>
      if seg = ['.', '.'] then acc.dropLast
      else if seg = ['.'] then acc
      else acc ++ [seg])
    []

/-- Model of `urllib.parse.urljoin base url`. -/
def urljoin (base url : String) : String :=
  if base = "" then url
  else if url = "" then base
  else
    let b := urlsplitL base.data
    let u := urlsplitL url.data
    let scheme := if u.scheme = [] then b.scheme else u.scheme
    if scheme ≠ b.scheme then url
    else if u.netloc ≠ [] then
      ⟨urlunsplitL ⟨scheme, u.netloc, u.path, u.query, u.fragment⟩⟩
    else if u.path = [] then
      ⟨urlunsplitL ⟨scheme, b.netloc, b.path,
                    (if u.query = [] then b.query else u.query), u.fragment⟩⟩
    else
      let segments :=
        if u.path.take 1 = ['/'] then splitSlash u.path
        else
          let baseParts := splitSlash b.path
          let baseParts :=
            if baseParts.getLast? = some [] then baseParts else baseParts.dropLast
          mergeMiddle (baseParts ++ splitSlash u.path)
      let resolved := resolveDots segments
      let resolved :=
        if segments.getLast? = some ['.'] ∨ segments.getLast? = some ['.', '.'] then
          resolved ++ [[]]
        else resolved
      let pathJ := List.intercalate ['/'] resolved
      let pathJ := if pathJ = [] then ['/'] else pathJ
      ⟨urlunsplitL ⟨scheme, b.netloc, pathJ, u.query, u.fragment⟩⟩

example : urljoin "http://site.com" "/p" = "http://site.com/p" := by decide
example : urljoin "http://s.com/a/b" "c/./d" = "http://s.com/a/c/d" := by decide
example : urljoin "http://s.com/a" "http://t.com/x" = "http://t.com/x" := by decide

/-! ## Link resolution of `AccurateLinkChecker.extract_links`

The raw harvesting of `href` attributes and `loc`/`url` element texts is
delegated to BeautifulSoup / ElementTree (external collaborators); it is
abstracted as the input list `rawLinks`.  The modelled part is the
per-link pipeline of the source: `urljoin(base_url, unquote(link))`,
`normalize_url`, and the `is_internal_link` scope filter; the returned
Python `set` is modelled by deduplication. -/

/-- Resolution/normalization/scope-filter pipeline of `extract_links`. -/
def resolveLinks (baseDomain baseUrl : String) (rawLinks : List String) : List String :=
  ((rawLinks.map (fun l => normalize_url (urljoin baseUrl ⟨unquoteL l.data⟩))).filter
    (fun n => is_internal_link baseDomain n)).dedup

example : resolveLinks "site.com" "http://site.com"
    ["/p", "http://other.com/q"] = ["http://site.com/p"] := by decide

/-! ## Model of the HTTP response and of `AccurateLinkChecker.handle_request`

The network is abstracted as an oracle mapping each attempt number to
the outcome of `session.get` on that attempt. -/

/-- Abstraction of a `requests` response: final URL after redirects,
status code, status codes of the redirect history, the raw links its
body yields to the extractor, and the body text (the latter only feeds
the spec-modelled soft-404 similarity). -/
structure Response where
  url : String
  status : Nat
  history : List Nat
  rawLinks : List String
  body : String
deriving DecidableEq, Repr

/-- Outcome of one `session.get` attempt inside `handle_request`.
`requestExc` covers every other `requests.exceptions.RequestException`
(in particular `ConnectionError`), caught by the last except clause with
`type(e).__name__` as its kind. -/
inductive AttemptResult where
  | success (r : Response)
  | sslError (d : String)
  | timeoutErr (d : String)
  | tooManyRedirects (d : String)
  | requestExc (name : String) (d : String)

/-- The retry loop of `handle_request`, from attempt number `attempt`
with `fuel` loop iterations remaining; returns the `(response, error)`
pair of the source together with the number of attempts performed
(instrumentation used to state retry behaviour). -/
def handleRequestFrom (oracle : Nat → AttemptResult) (retries : Nat) :
    Nat → Nat → (Option Response × Option (String × String)) × Nat
  | attempt, 0 => ((none, some ("MaxRetriesExceeded", "")), attempt)
  | attempt, fuel + 1 =>
    match oracle attempt with
    | .success r => ((some r, none), attempt + 1)
    | .sslError d => ((none, some ("SSL Error", d)), attempt + 1)
    | .timeoutErr d =>
      if attempt = retries then ((none, some ("Timeout", d)), attempt + 1)
      else handleRequestFrom oracle retries (attempt + 1) fuel
    | .tooManyRedirects d => ((none, some ("TooManyRedirects", d)), attempt + 1)
    | .requestExc n d => ((none, some (n, d)), attempt + 1)

/-- `AccurateLinkChecker.handle_request`: the loop body runs for
attempts `0 .. retries` (the `range(self.retries + 1)` loop). -/
def handle_request (oracle : Nat → AttemptResult) (retries : Nat) :
    (Option Response × Option (String × String)) × Nat :=
  handleRequestFrom oracle retries 0 (retries + 1)

/-! ## The worker pool as a small-step transition system

Each constructor of `Step` is one atomic action of one worker thread.
Every lock-guarded block of `worker` (the visited check-and-insert, the
dead-link append, the final-URL enqueue, the new-link enqueue) is a
single step; the code between lock acquisitions only touches thread
local state.  `env` abstracts the network: what `handle_request`
produces for each URL; `FetchOutcome.raise` models an exception escaping
the per-job code (e.g. a `ChunkedEncodingError` raised while reading
`response.text`), which the catch-all handler of `worker` answers by
logging and `break`-ing out of the loop. -/

/-- Result of fetching and processing one URL, as seen by `worker`. -/
inductive FetchOutcome where
  | err (kind detail : String)
  | ok (r : Response)
  | raise

/-- Thread state of one worker:
`idle` (about to call `task_queue.get`), `processing u` (claimed `u`,
fetch and response handling under way), `pushing u r` (successful
response handled up to the link-enqueue lock block), `exited` (broke out
of the loop). -/
inductive Phase where
  | idle
  | processing (u : String)
  | pushing (u : String) (r : Response)
  | exited
deriving DecidableEq, Repr

/-- Shared state of the checker plus the per-worker phases and a ghost
trace `dispatched` recording each URL in the order it passed the
visited-set guard (i.e. each URL actually fetched). -/
structure SysState where
  queue : List String
  visited : List String
  allLinks : List String
  dead : List (String × String)
  phases : List Phase
  dispatched : List String
deriving DecidableEq, Repr

/-- The status-code classification of `worker` on a successful response:
a dead-link record `(url, "HTTP <code>")` exactly when the final status
is at least 400; the redirect history of the response is not consulted
(the source only logs it). -/
def statusDead (u : String) (r : Response) : Option (String × String) :=
  if 400 ≤ r.status then some (u, "HTTP " ++ toString r.status) else none

/-- The final-URL enqueue of `worker`: after a successful fetch the
normalized final URL is enqueued when it differs from the requested URL
and is not yet visited — with no scope check. -/
def pushFinal (s : SysState) (u : String) (r : Response) : List String :=
  let final := normalize_url r.url
  if final ≠ u ∧ final ∉ s.visited then s.queue ++ [final] else s.queue

/-- The link-enqueue lock block of `worker`:
`new_links = links - all_links` over the resolved in-scope links. -/
def newLinks (bd : String) (s : SysState) (r : Response) : List String :=
  (resolveLinks bd (normalize_url r.url) r.rawLinks).filter
    (fun l => decide (l ∉ s.allLinks))

/-- One atomic action of one worker (see the section comment). -/
inductive Step (env : String → FetchOutcome) (bd : String) : SysState → SysState → Prop
  | claimSkip (s : SysState) (i : Nat) (u : String) (q : List String) :
      s.phases.get? i = some Phase.idle → s.queue = u :: q → u ∈ s.visited →
      Step env bd s { s with queue := q }
  | claimNew (s : SysState) (i : Nat) (u : String) (q : List String) :
      s.phases.get? i = some Phase.idle → s.queue = u :: q → u ∉ s.visited →
      Step env bd s
        { s with queue := q, visited := u :: s.visited,
                 phases := s.phases.set i (Phase.processing u),
                 dispatched := s.dispatched ++ [u] }
  | fetchErr (s : SysState) (i : Nat) (u : String) (k d : String) :
      s.phases.get? i = some (Phase.processing u) → env u = FetchOutcome.err k d →
      Step env bd s
        { s with dead := s.dead ++ [(u, k ++ " - " ++ d)],
                 phases := s.phases.set i Phase.idle }
  | fetchRaise (s : SysState) (i : Nat) (u : String) :
      s.phases.get? i = some (Phase.processing u) → env u = FetchOutcome.raise →
      Step env bd s { s with phases := s.phases.set i Phase.exited }
  | respOk (s : SysState) (i : Nat) (u : String) (r : Response) :
      s.phases.get? i = some (Phase.processing u) → env u = FetchOutcome.ok r →
      Step env bd s
        { s with queue := pushFinal s u r,
                 dead := s.dead ++ (statusDead u r).toList,
                 phases := s.phases.set i
                   (if 400 ≤ r.status then Phase.idle else Phase.pushing u r) }
  | pushLinks (s : SysState) (i : Nat) (u : String) (r : Response) :
      s.phases.get? i = some (Phase.pushing u r) →
      Step env bd s
        { s with queue := s.queue ++ newLinks bd s r,
                 allLinks := s.allLinks ++ newLinks bd s r,
                 phases := s.phases.set i Phase.idle }
  | exitEmpty (s : SysState) (i : Nat) :
      s.phases.get? i = some Phase.idle → s.queue = [] →
      Step env bd s { s with phases := s.phases.set i Phase.exited }

/-- Interleaved executions of the worker pool. -/
def Reachable (env : String → FetchOutcome) (bd : String) : SysState → SysState → Prop :=
  Relation.ReflTransGen (Step env bd)

/-- Initial state of `AccurateLinkChecker.__init__` followed by `run`
with `n` workers: the queue holds the normalized seed, everything else
is empty, every worker idle. -/
def initState (n : Nat) (seed : String) : SysState :=
  { queue := [normalize_url seed], visited := [], allLinks := [], dead := [],
    phases := List.replicate n Phase.idle, dispatched := [] }

/-! ## Spec-modelled soft-404 similarity

Modelled from the spec: the code in `deadlink.py` contains no homepage
fingerprint and no similarity computation at all, so the feature vector
(body length, whitespace count, structural-tag count, link count) and
the normalized diff-ratio are taken from the specification's words.
They appear only in the premises of the soft-404 claim. -/

/-- Modelled from the spec: number of `href` occurrences (link count). -/
def countHref : List Char → Nat
  | 'h' :: 'r' :: 'e' :: 'f' :: rest => countHref rest + 1
  | _ :: rest => countHref rest
  | [] => 0

/-- Modelled from the spec: feature vector of a body — length,
whitespace count, structural-tag count, link count. -/
def specFeatureVec (body : String) : List Nat :=
  [body.length,
   (body.data.filter (fun c => c.isWhitespace)).length,
   (body.data.filter (fun c => c = '<')).length,
   countHref body.data]

/-- Modelled from the spec: normalized diff-ratio similarity of two
feature vectors (1 means identical). -/
def specSimilarity (v w : List Nat) : ℚ :=
  let num := ((v.zip w).map (fun p => (max p.1 p.2 : ℚ) - min p.1 p.2)).sum
  let den := ((v.zip w).map (fun p => (p.1 + p.2 : ℚ))).sum
  if den = 0 then 1 else 1 - num / den

/-! ## Derived predicates and concrete scenarios used by the claims -/

/-- Shape of every dead-link record the worker can produce for the
environment `env`: a transport-failure record `(u, kind ++ " - " ++
detail)` from the error branch, or an `(u, "HTTP <code>")` record with
code at least 400 from the status branch.  `raise` produces no record. -/
def deadShape (env : String → FetchOutcome) (rec : String × String) : Prop :=
  match env rec.1 with
  | .err k d => rec.2 = k ++ " - " ++ d
  | .ok r => 400 ≤ r.status ∧ rec.2 = "HTTP " ++ toString r.status
  | .raise => False

/-- Soft-404 scenario: response of the homepage itself. -/
def rC2home : Response :=
  ⟨"http://site.com", 200, [], ["/page"], "<html><a href=x>home</a></html>"⟩

/-- Soft-404 scenario: the page silently redirects (301, final 200) to
the homepage and serves the homepage body verbatim. -/
def rC2page : Response :=
  ⟨"http://site.com", 200, [301], [], "<html><a href=x>home</a></html>"⟩

/-- Network of the soft-404 scenario. -/
def envC2 : String → FetchOutcome := fun u =>
  if u = "http://site.com" then .ok rC2home
  else if u = "http://site.com/page" then .ok rC2page
  else .raise

/-- Final state of the soft-404 scenario: both URLs fully processed,
worker exited, no dead-link record. -/
def c2End : SysState :=
  { queue := [], visited := ["http://site.com/page", "http://site.com"],
    allLinks := ["http://site.com/page"], dead := [],
    phases := [Phase.exited],
    dispatched := ["http://site.com", "http://site.com/page"] }

/-- Cross-host redirect scenario: the seed's response lands on an
external host with a success status. -/
def rC4 : Response := ⟨"http://evil.com/x", 200, [302], [], ""⟩

/-- Network of the cross-host redirect scenario. -/
def envC4 : String → FetchOutcome := fun u =>
  if u = "http://a.com" then .ok rC4 else .raise

/-- State of the cross-host redirect scenario right after the final-URL
enqueue: the external URL sits in the pending queue. -/
def c4End : SysState :=
  { queue := ["http://evil.com/x"], visited := ["http://a.com"],
    allLinks := [], dead := [], phases := [Phase.pushing "http://a.com" rC4],
    dispatched := ["http://a.com"] }

/-- Worker-abort scenario for the termination claim: the seed page
links to `/b` and `/c`; fetching `/b` raises an unexpected exception. -/
def rC5 : Response := ⟨"http://c5.com", 200, [], ["/b", "/c"], ""⟩

/-- Network of the worker-abort termination scenario. -/
def envC5 : String → FetchOutcome := fun u =>
  if u = "http://c5.com" then .ok rC5 else .raise

/-- Intermediate state of the worker-abort scenario at which the poll
loop of `run` observes an empty queue (the worker holds the seed job). -/
def c5Mid : SysState :=
  { queue := [], visited := ["http://c5.com"], allLinks := [], dead := [],
    phases := [Phase.processing "http://c5.com"],
    dispatched := ["http://c5.com"] }

/-- Final state of the worker-abort scenario: the only worker exited on
the exception while `/c` is still pending. -/
def c5End : SysState :=
  { queue := ["http://c5.com/c"],
    visited := ["http://c5.com/b", "http://c5.com"],
    allLinks := ["http://c5.com/b", "http://c5.com/c"], dead := [],
    phases := [Phase.exited],
    dispatched := ["http://c5.com", "http://c5.com/b"] }

/-- Worker-abort scenario for the per-job error-handling claim. -/
def rC7 : Response := ⟨"http://c7.com", 200, [], ["/b", "/c"], ""⟩

/-- Network of the per-job error-handling scenario: processing
`http://c7.com/b` raises an unexpected exception. -/
def envC7 : String → FetchOutcome := fun u =>
  if u = "http://c7.com" then .ok rC7 else .raise

/-- Final state of the per-job error-handling scenario: the single
failing URL `/b` terminated the worker loop, `/c` remains pending and is
never processed. -/
def c7End : SysState :=
  { queue := ["http://c7.com/c"],
    visited := ["http://c7.com/b", "http://c7.com"],
    allLinks := ["http://c7.com/b", "http://c7.com/c"], dead := [],
    phases := [Phase.exited],
    dispatched := ["http://c7.com", "http://c7.com/b"] }

/-- Network used by witnesses: every fetch fails with a timeout. -/
def envW2 : String → FetchOutcome := fun _ => .err "Timeout" "t"

/-- Attempt oracle: every attempt raises `ConnectionError`. -/
def oracleConn : Nat → AttemptResult := fun _ => .requestExc "ConnectionError" "refused"

/-- Attempt oracle: every attempt times out. -/
def oracleAllTimeout : Nat → AttemptResult := fun _ => .timeoutErr "t"

/-- Attempt oracle: first attempt times out, the retry succeeds. -/
def oracleRetryOk : Nat → AttemptResult := fun n =>
  if n = 0 then .timeoutErr "t" else .success ⟨"http://w6.com", 200, [], [], ""⟩

/-! # Theorems -/

/-! ## Elementary facts about the character model -/

theorem charToNat_ofNat (n : Nat) (h : n.isValidChar) : (Char.ofNat n).toNat = n := by
  simp [Char.ofNat, Char.ofNatAux, h, Char.toNat]
  rfl

theorem char_eq_of_toNat_eq {a b : Char} (h : a.toNat = b.toNat) : a = b := by
  cases a; cases b
  simp only [Char.toNat] at h
  congr 1
  exact UInt32.ext h

theorem pyLower_toNat (c : Char) :
    (pyLower c).toNat = if 65 ≤ c.toNat ∧ c.toNat ≤ 90 then c.toNat + 32 else c.toNat := by
  by_cases hc : 65 ≤ c.toNat ∧ c.toNat ≤ 90
  · simp only [pyLower, if_pos hc]
    exact charToNat_ofNat _ (Or.inl (by omega))
  · simp only [pyLower, if_neg hc]

theorem pyLower_pyLower (c : Char) : pyLower (pyLower c) = pyLower c := by
  apply char_eq_of_toNat_eq
  rw [pyLower_toNat, pyLower_toNat]
  split_ifs <;> omega

theorem toLowerL_idem (l : List Char) : toLowerL (toLowerL l) = toLowerL l := by
  induction l with
  | nil => rfl
  | cons c t ih =>
    simp only [toLowerL, List.map_cons] at ih ⊢
    rw [pyLower_pyLower]
    exact congrArg _ ih

/-! ## Claims about `handle_request` (C6, C10) -/

theorem handleRequestFrom_shape (oracle : Nat → AttemptResult) (retries : Nat) :
    ∀ fuel attempt,
      (∃ r, (handleRequestFrom oracle retries attempt fuel).1 = (some r, none)) ∨
      (∃ e, (handleRequestFrom oracle retries attempt fuel).1 = (none, some e)) := by
  intro fuel
  induction fuel with
  | zero => intro attempt; exact Or.inr ⟨_, rfl⟩
  | succ n ih =>
    intro attempt
    simp only [handleRequestFrom]
    cases h : oracle attempt with
    | success r => exact Or.inl ⟨r, rfl⟩
    | sslError d => exact Or.inr ⟨_, rfl⟩
    | timeoutErr d =>
      by_cases ha : attempt = retries
      · simp only [if_pos ha]; exact Or.inr ⟨_, rfl⟩
      · simp only [if_neg ha]; exact ih (attempt + 1)
    | tooManyRedirects d => exact Or.inr ⟨_, rfl⟩
    | requestExc nm d => exact Or.inr ⟨_, rfl⟩

/-- Claim C10: `handle_request` always returns a `(response, error)`
pair with exactly one component present — a successful fetch yields
`(response, None)` and every request failure is converted into
`(None, (kind, detail))`; every branch of the modelled loop returns
rather than propagating a `requests` exception to the worker. -/
theorem c10_handle_request_exactly_one (oracle : Nat → AttemptResult) (retries : Nat) :
    (∃ r, (handle_request oracle retries).1 = (some r, none)) ∨
    (∃ e, (handle_request oracle retries).1 = (none, some e)) :=
  handleRequestFrom_shape oracle retries (retries + 1) 0

theorem handleRequestFrom_allTimeout (oracle : Nat → AttemptResult) (d : String)
    (retries : Nat) :
    ∀ fuel attempt, attempt + fuel = retries + 1 → attempt ≤ retries →
      (∀ i, oracle i = AttemptResult.timeoutErr d) →
      handleRequestFrom oracle retries attempt fuel =
        ((none, some ("Timeout", d)), retries + 1) := by
  intro fuel
  induction fuel with
  | zero => intro attempt h1 h2 _; omega
  | succ n ih =>
    intro attempt h1 h2 hto
    simp only [handleRequestFrom, hto attempt]
    by_cases ha : attempt = retries
    · subst ha
      simp
    · simp only [if_neg ha]
      exact ih (attempt + 1) (by omega) (by omega) hto

/-- Claim C6 (amended): `SSLError`, `TooManyRedirects` and every other
`RequestException` — in particular `ConnectionError` — are terminal on
the first attempt; only `Timeout` is retried (with a fixed 1-second
sleep), and when every attempt times out the reported failure is
`("Timeout", detail)` after `retries + 1` attempts, not
`MaxRetriesExceeded`. -/
theorem c6_amended (oracle : Nat → AttemptResult) (retries : Nat) :
    (∀ n d, oracle 0 = AttemptResult.requestExc n d →
        handle_request oracle retries = ((none, some (n, d)), 1)) ∧
    (∀ d, oracle 0 = AttemptResult.sslError d →
        handle_request oracle retries = ((none, some ("SSL Error", d)), 1)) ∧
    (∀ d, oracle 0 = AttemptResult.tooManyRedirects d →
        handle_request oracle retries = ((none, some ("TooManyRedirects", d)), 1)) ∧
    (∀ d, (∀ i, oracle i = AttemptResult.timeoutErr d) →
        handle_request oracle retries = ((none, some ("Timeout", d)), retries + 1)) ∧
    (∀ d r, oracle 0 = AttemptResult.timeoutErr d → oracle 1 = AttemptResult.success r →
        1 ≤ retries → handle_request oracle retries = ((some r, none), 2)) := by
  refine ⟨?_, ?_, ?_, ?_, ?_⟩
  · intro n d h; simp only [handle_request, handleRequestFrom, h]
  · intro d h; simp only [handle_request, handleRequestFrom, h]
  · intro d h; simp only [handle_request, handleRequestFrom, h]
  · intro d hto
    exact handleRequestFrom_allTimeout oracle d retries (retries + 1) 0 (by omega)
      (by omega) hto
  · intro d r h0 h1 hr
    obtain ⟨k, rfl⟩ : ∃ k, retries = k + 1 := ⟨retries - 1, by omega⟩
    simp only [handle_request, handleRequestFrom, h0, h1,
      if_neg (by omega : ¬ (0 : Nat) = k + 1)]

/-- Claim C6 counterexample: with `retries = 2`, a `ConnectionError`
(caught by the generic `RequestException` clause) terminates
`handle_request` on the very first attempt — it is not retried — and
exhausting all attempts on timeouts reports `("Timeout", detail)` after
3 attempts, never `MaxRetriesExceeded`. -/
theorem c6_counterexample :
    handle_request oracleConn 2 = ((none, some ("ConnectionError", "refused")), 1) ∧
    handle_request oracleAllTimeout 2 = ((none, some ("Timeout", "t")), 3) :=
  ⟨rfl, rfl⟩

theorem c6_amended_witness :
    handle_request oracleRetryOk 1 = ((some ⟨"http://w6.com", 200, [], [], ""⟩, none), 2) :=
  (c6_amended oracleRetryOk 1).2.2.2.2 "t" ⟨"http://w6.com", 200, [], [], ""⟩ rfl rfl
    (by omega)

/-! ## Claims about the status-code classification (C3) -/

/-- Claim C3 counterexample: a response whose redirect history contains
a 404 hop but whose final status is 200 produces no dead-link record at
all — `worker` only logs the redirect history (`if response.history:
logging.info(...)`) and classifies by the final status alone, so no
`redirect-chain-error` record exists. -/
theorem c3_counterexample :
    statusDead "http://h/x" ⟨"http://h/ok", 200, [404], [], ""⟩ = none ∧
    404 ∈ (⟨"http://h/ok", 200, [404], [], ""⟩ : Response).history ∧ 400 ≤ 404 := by
  refine ⟨rfl, ?_, by omega⟩
  simp

/-- Claim C3 (amended): the redirect history never influences the
classification — `statusDead` (the record appended by the `respOk` step
of `worker`) is independent of the `history` field, and a dead-link
record is produced exactly when the final status is at least 400. -/
theorem c3_amended (u : String) (r : Response) (h : List Nat) :
    statusDead u { r with history := h } = statusDead u r ∧
    (statusDead u r = none ↔ r.status < 400) := by
  refine ⟨rfl, ?_⟩
  unfold statusDead
  split_ifs with hs
  · simp only [Option.some_ne_none, false_iff]; omega
  · simp only [true_iff]; omega

theorem c3_amended_witness :
    statusDead "u" { (⟨"f", 200, [], [], ""⟩ : Response) with history := [404] } =
      statusDead "u" ⟨"f", 200, [], [], ""⟩ ∧
    (statusDead "u" (⟨"f", 200, [], [], ""⟩ : Response) = none ↔
      (⟨"f", 200, [], [], ""⟩ : Response).status < 400) :=
  c3_amended "u" ⟨"f", 200, [], [], ""⟩ [404]

/-! ## Claims about lowercasing (C9) and idempotence (C8) -/

/-- Claim C9 counterexample: two URLs differing only in the letter case
of their query canonicalize to the same string, not distinct ones —
`normalize_url` applies `.lower()` to the whole reassembled URL,
query included. -/
theorem c9_counterexample :
    normalize_url "http://a/p?Q=V" = normalize_url "http://a/p?q=v" ∧
    ("http://a/p?Q=V" : String) ≠ "http://a/p?q=v" :=
  ⟨by decide, by decide⟩

/-- Claim C9 (amended): canonicalization lowercases the entire URL —
scheme, host, path and query alike: every canonical form is a fully
lowercased string, and query-case variants canonicalize identically. -/
theorem c9_amended :
    (∀ u, pyLowerStr (normalize_url u) = normalize_url u) ∧
    normalize_url "http://a/p?Q=V" = normalize_url "http://a/p?q=v" := by
  constructor
  · intro u
    refine congrArg String.mk ?_
    show toLowerL (normalizeUrlL u.data) = normalizeUrlL u.data
    simp only [normalizeUrlL]
    exact toLowerL_idem _
  · decide

theorem c9_amended_witness :
    pyLowerStr (normalize_url "http://A/B?C=D") = normalize_url "http://A/B?C=D" :=
  c9_amended.1 "http://A/B?C=D"

/-- Claim C8 counterexample: `normalize_url` is not idempotent —
percent-decoding happens after reassembly, so a `%25`-escaped escape
(`%2541`) decodes to a fresh `%41` escape that a second application
decodes again. -/
theorem c8_counterexample :
    normalize_url (normalize_url "http://a/%2541") ≠ normalize_url "http://a/%2541" := by
  decide

/-! ## Claims about the worker-pool transition system (C1, C2, C5, C7) -/

/-- Invariant behind at-most-once dispatch: the ghost dispatch trace has
no duplicates and every dispatched URL is in the visited set. -/
def DispatchInv (s : SysState) : Prop :=
  s.dispatched.Nodup ∧ ∀ u ∈ s.dispatched, u ∈ s.visited

theorem step_dispatchInv {env : String → FetchOutcome} {bd : String} {s t : SysState}
    (hst : Step env bd s t) (h : DispatchInv s) : DispatchInv t := by
  obtain ⟨hn, hsub⟩ := h
  cases hst with
  | claimSkip i u q h1 h2 h3 => exact ⟨hn, hsub⟩
  | claimNew i u q h1 h2 h3 =>
    constructor
    · have hu : u ∉ s.dispatched := fun hmem => h3 (hsub u hmem)
      rw [List.nodup_append]
      exact ⟨hn, List.nodup_singleton u,
        fun a ha hb => hu (by rwa [List.mem_singleton.mp hb] at ha)⟩
    · intro v hv
      rcases List.mem_append.mp hv with hmem | hmem
      · exact List.mem_cons_of_mem u (hsub v hmem)
      · rw [List.mem_singleton.mp hmem]; exact List.mem_cons_self u s.visited
  | fetchErr i u k d h1 h2 => exact ⟨hn, hsub⟩
  | fetchRaise i u h1 h2 => exact ⟨hn, hsub⟩
  | respOk i u r h1 h2 => exact ⟨hn, hsub⟩
  | pushLinks i u r h1 => exact ⟨hn, hsub⟩
  | exitEmpty i h1 h2 => exact ⟨hn, hsub⟩

theorem reachable_dispatchInv {env : String → FetchOutcome} {bd : String}
    {s t : SysState} (h : Reachable env bd s t) (hs : DispatchInv s) : DispatchInv t := by
  induction h with
  | refl => exact hs
  | tail hr hstep ih => exact step_dispatchInv hstep ih

/-- Claim C1: under any number of concurrent workers and any network
behaviour, each canonical URL is dispatched (and hence fetched) at most
once: the visited-set membership check and insertion form one atomic
step (`claimNew`, the single lock-guarded block of `worker`), so the
ghost dispatch trace of every reachable state has no duplicates. -/
theorem c1_at_most_once (env : String → FetchOutcome) (bd : String) (n : Nat)
    (seed : String) (s : SysState) (h : Reachable env bd (initState n seed) s)
    (u : String) : s.dispatched.count u ≤ 1 := by
  have hinv : DispatchInv s :=
    reachable_dispatchInv h ⟨List.nodup_nil, fun v hv => absurd hv (List.not_mem_nil v)⟩
  exact List.nodup_iff_count_le_one.mp hinv.1 u

theorem c1_at_most_once_witness :
    (initState 1 "http://w1.com").dispatched.count "http://w1.com" ≤ 1 :=
  c1_at_most_once (fun _ => FetchOutcome.raise) "w1.com" 1 "http://w1.com"
    (initState 1 "http://w1.com") Relation.ReflTransGen.refl "http://w1.com"

theorem step_deadShape {env : String → FetchOutcome} {bd : String} {s t : SysState}
    (hst : Step env bd s t) (h : ∀ rec ∈ s.dead, deadShape env rec) :
    ∀ rec ∈ t.dead, deadShape env rec := by
  cases hst with
  | claimSkip i u q h1 h2 h3 => exact h
  | claimNew i u q h1 h2 h3 => exact h
  | fetchErr i u k d h1 h2 =>
    intro rec hrec
    rcases List.mem_append.mp hrec with hmem | hmem
    · exact h rec hmem
    · rw [List.mem_singleton.mp hmem]
      simp only [deadShape, h2]
  | fetchRaise i u h1 h2 => exact h
  | respOk i u r h1 h2 =>
    intro rec hrec
    rcases List.mem_append.mp hrec with hmem | hmem
    · exact h rec hmem
    · unfold statusDead at hmem
      by_cases hs : 400 ≤ r.status
      · rw [if_pos hs] at hmem
        rw [List.mem_singleton.mp hmem]
        simp only [deadShape, h2]
        exact ⟨hs, trivial⟩
      · rw [if_neg hs] at hmem
        exact absurd hmem (List.not_mem_nil rec)
  | pushLinks i u r h1 => exact h
  | exitEmpty i h1 h2 => exact h

/-- Claim C2 (amended): the checker performs no soft-404 detection at
all — every dead-link record of every reachable state is either a
transport-failure record `(u, kind ++ " - " ++ detail)` or a status
record `(u, "HTTP <code>")` with code at least 400; no `soft-404`
reason exists, and a success-status response is never recorded dead,
however similar its body is to the homepage. -/
theorem c2_amended (env : String → FetchOutcome) (bd : String) (n : Nat)
    (seed : String) (s : SysState) (h : Reachable env bd (initState n seed) s) :
    ∀ rec ∈ s.dead, deadShape env rec := by
  induction h with
  | refl => exact fun rec hrec => absurd hrec (List.not_mem_nil rec)
  | tail hr hstep ih => exact step_deadShape hstep ih

/-- Claim C5 (amended, part): a state in which every worker has exited
is quiescent — no further step of any worker is possible, so when `run`
returns (all workers joined), every dispatched job has completed or
aborted and the dead-link list is final.  The pending queue, however,
need not be empty at that point (see the counterexample). -/
theorem c5_amended (env : String → FetchOutcome) (bd : String) (s t : SysState)
    (hall : ∀ p ∈ s.phases, p = Phase.exited) : ¬ Step env bd s t := by
  intro hst
  cases hst with
  | claimSkip i u q h1 h2 h3 => exact Phase.noConfusion (hall _ (List.get?_mem h1))
  | claimNew i u q h1 h2 h3 => exact Phase.noConfusion (hall _ (List.get?_mem h1))
  | fetchErr i u k d h1 h2 => exact Phase.noConfusion (hall _ (List.get?_mem h1))
  | fetchRaise i u h1 h2 => exact Phase.noConfusion (hall _ (List.get?_mem h1))
  | respOk i u r h1 h2 => exact Phase.noConfusion (hall _ (List.get?_mem h1))
  | pushLinks i u r h1 => exact Phase.noConfusion (hall _ (List.get?_mem h1))
  | exitEmpty i h1 h2 => exact Phase.noConfusion (hall _ (List.get?_mem h1))

theorem c5_amended_witness :
    ¬ Step (fun _ => FetchOutcome.raise) "w5.com"
      ⟨["http://w5.com/left"], [], [], [], [Phase.exited], []⟩
      ⟨[], [], [], [], [Phase.exited], []⟩ :=
  c5_amended (fun _ => FetchOutcome.raise) "w5.com"
    ⟨["http://w5.com/left"], [], [], [], [Phase.exited], []⟩
    ⟨[], [], [], [], [Phase.exited], []⟩
    (fun p hp => List.mem_singleton.mp hp)

/-- Claim C7 (amended): an unexpected exception while processing a URL
does not let the worker continue with the next job — the catch-all
handler `break`s: (a) a worker processing a URL on which the
environment raises can only stay where it is or move to `exited`, never
back to `idle`, and (b) `exited` is absorbing, so the worker never
processes another job afterwards. -/
theorem c7_amended (env : String → FetchOutcome) (bd : String) :
    (∀ s t i u, Step env bd s t →
        s.phases.get? i = some (Phase.processing u) → env u = FetchOutcome.raise →
        t.phases.get? i = some (Phase.processing u) ∨
          t.phases.get? i = some Phase.exited) ∧
    (∀ s t i, Step env bd s t → s.phases.get? i = some Phase.exited →
        t.phases.get? i = some Phase.exited) := by
  constructor
  · intro s t i u hst hi hr
    cases hst with
    | claimSkip j v q h1 h2 h3 => exact Or.inl hi
    | claimNew j v q h1 h2 h3 =>
      by_cases hij : j = i
      · subst hij; rw [h1] at hi; exact Phase.noConfusion (Option.some.inj hi)
      · exact Or.inl (by rwa [List.get?_set_ne _ _ hij])
    | fetchErr j v k d h1 h2 =>
      by_cases hij : j = i
      · subst hij; rw [h1] at hi
        have hv : v = u := by
          have := Option.some.inj hi; exact (Phase.processing.inj this)
        rw [hv] at h2; rw [h2] at hr; exact FetchOutcome.noConfusion hr
      · exact Or.inl (by rwa [List.get?_set_ne _ _ hij])
    | fetchRaise j v h1 h2 =>
      by_cases hij : j = i
      · subst hij
        refine Or.inr ?_
        rw [List.get?_set_eq, hi]
        rfl
      · exact Or.inl (by rwa [List.get?_set_ne _ _ hij])
    | respOk j v r h1 h2 =>
      by_cases hij : j = i
      · subst hij; rw [h1] at hi
        have hv : v = u := by
          have := Option.some.inj hi; exact (Phase.processing.inj this)
        rw [hv] at h2; rw [h2] at hr; exact FetchOutcome.noConfusion hr
      · exact Or.inl (by rwa [List.get?_set_ne _ _ hij])
    | pushLinks j v r h1 =>
      by_cases hij : j = i
      · subst hij; rw [h1] at hi; exact Phase.noConfusion (Option.some.inj hi)
      · exact Or.inl (by rwa [List.get?_set_ne _ _ hij])
    | exitEmpty j h1 h2 =>
      by_cases hij : j = i
      · subst hij; rw [h1] at hi; exact Phase.noConfusion (Option.some.inj hi)
      · exact Or.inl (by rwa [List.get?_set_ne _ _ hij])
  · intro s t i hst hi
    cases hst with
    | claimSkip j v q h1 h2 h3 => exact hi
    | claimNew j v q h1 h2 h3 =>
      by_cases hij : j = i
      · subst hij; rw [h1] at hi; exact Phase.noConfusion (Option.some.inj hi)
      · rwa [List.get?_set_ne _ _ hij]
    | fetchErr j v k d h1 h2 =>
      by_cases hij : j = i
      · subst hij; rw [h1] at hi; exact Phase.noConfusion (Option.some.inj hi)
      · rwa [List.get?_set_ne _ _ hij]
    | fetchRaise j v h1 h2 =>
      by_cases hij : j = i
      · subst hij; rw [h1] at hi; exact Phase.noConfusion (Option.some.inj hi)
      · rwa [List.get?_set_ne _ _ hij]
    | respOk j v r h1 h2 =>
      by_cases hij : j = i
      · subst hij; rw [h1] at hi; exact Phase.noConfusion (Option.some.inj hi)
      · rwa [List.get?_set_ne _ _ hij]
    | pushLinks j v r h1 =>
      by_cases hij : j = i
      · subst hij; rw [h1] at hi; exact Phase.noConfusion (Option.some.inj hi)
      · rwa [List.get?_set_ne _ _ hij]
    | exitEmpty j h1 h2 =>
      by_cases hij : j = i
      · subst hij; rw [h1] at hi; exact Phase.noConfusion (Option.some.inj hi)
      · rwa [List.get?_set_ne _ _ hij]

theorem c7_amended_witness :
    (⟨["http://w7.com/c"], ["http://w7.com/b"], [], [], [Phase.exited],
        ["http://w7.com/b"]⟩ : SysState).phases.get? 0 =
          some (Phase.processing "http://w7.com/b") ∨
    (⟨["http://w7.com/c"], ["http://w7.com/b"], [], [], [Phase.exited],
        ["http://w7.com/b"]⟩ : SysState).phases.get? 0 = some Phase.exited :=
  (c7_amended (fun _ => FetchOutcome.raise) "w7.com").1
    ⟨["http://w7.com/c"], ["http://w7.com/b"], [], [], [Phase.processing "http://w7.com/b"],
      ["http://w7.com/b"]⟩
    ⟨["http://w7.com/c"], ["http://w7.com/b"], [], [], [Phase.exited],
      ["http://w7.com/b"]⟩
    0 "http://w7.com/b"
    (Step.fetchRaise
      ⟨["http://w7.com/c"], ["http://w7.com/b"], [], [], [Phase.processing "http://w7.com/b"],
        ["http://w7.com/b"]⟩
      0 "http://w7.com/b" rfl rfl)
    rfl rfl

/-! ## Counterexample executions (C2, C4, C5, C7) -/

/-- Claim C4 counterexample: a cross-host URL does enter the pending
queue — the worker enqueues the normalized final URL of a redirect
without any scope check (`if final_url not in self.visited:
task_queue.put(final_url)`), so after the seed's response lands on
`evil.com` the external URL is pending. -/
theorem c4_counterexample :
    Reachable envC4 "a.com" (initState 1 "http://a.com") c4End ∧
    "http://evil.com/x" ∈ c4End.queue ∧
    is_internal_link "a.com" "http://evil.com/x" = false := by
  refine ⟨?_, by decide, by decide⟩
  exact Relation.ReflTransGen.head
    (Step.claimNew _ 0 "http://a.com" [] rfl (by decide) (by decide))
    (Relation.ReflTransGen.head
      (Step.respOk _ 0 "http://a.com" rC4 rfl rfl)
      Relation.ReflTransGen.refl)

/-- Claim C5 counterexample: a run can end with a discovered URL still
pending.  In this execution the poll loop of `run` observes an empty
queue at `c5Mid` (the worker holds the seed job), the worker then
enqueues `/b` and `/c`, claims `/b`, and an unexpected exception makes
it break out of its loop; at `c5End` every worker has exited (so
`executor.shutdown(wait=True)` returns and `run` ends) while
`http://c5.com/c` is still in the pending queue. -/
theorem c5_counterexample :
    Reachable envC5 "c5.com" (initState 1 "http://c5.com") c5Mid ∧
    c5Mid.queue = [] ∧
    Reachable envC5 "c5.com" c5Mid c5End ∧
    c5End.phases = [Phase.exited] ∧
    c5End.queue = ["http://c5.com/c"] := by
  refine ⟨?_, rfl, ?_, rfl, rfl⟩
  · exact Relation.ReflTransGen.head
      (Step.claimNew _ 0 "http://c5.com" [] rfl (by decide) (by decide))
      Relation.ReflTransGen.refl
  · exact Relation.ReflTransGen.head
      (Step.respOk _ 0 "http://c5.com" rC5 rfl rfl)
      (Relation.ReflTransGen.head
        (Step.pushLinks _ 0 "http://c5.com" rC5 rfl)
        (Relation.ReflTransGen.head
          (Step.claimNew _ 0 "http://c5.com/b" ["http://c5.com/c"] rfl (by decide)
            (by decide))
          (Relation.ReflTransGen.head
            (Step.fetchRaise _ 0 "http://c5.com/b" rfl rfl)
            Relation.ReflTransGen.refl)))

/-- Claim C7 counterexample: one failing URL terminates the worker
loop.  The seed links to `/b` and `/c`; processing `/b` raises an
unexpected exception, the catch-all handler of `worker` logs and
`break`s, and the worker reaches `exited` with `/c` still pending —
it never continues with the next job. -/
theorem c7_counterexample :
    Reachable envC7 "c7.com" (initState 1 "http://c7.com") c7End ∧
    envC7 "http://c7.com/b" = FetchOutcome.raise ∧
    c7End.phases = [Phase.exited] ∧
    c7End.queue = ["http://c7.com/c"] := by
  refine ⟨?_, rfl, rfl, rfl⟩
  exact Relation.ReflTransGen.head
    (Step.claimNew _ 0 "http://c7.com" [] rfl (by decide) (by decide))
    (Relation.ReflTransGen.head
      (Step.respOk _ 0 "http://c7.com" rC7 rfl rfl)
      (Relation.ReflTransGen.head
        (Step.pushLinks _ 0 "http://c7.com" rC7 rfl)
        (Relation.ReflTransGen.head
          (Step.claimNew _ 0 "http://c7.com/b" ["http://c7.com/c"] rfl (by decide)
            (by decide))
          (Relation.ReflTransGen.head
            (Step.fetchRaise _ 0 "http://c7.com/b" rfl rfl)
            Relation.ReflTransGen.refl))))

/-- Claim C2 counterexample: a response whose final URL is the homepage,
whose body is identical to the homepage body (spec-modelled similarity
1 ≥ 0.8) and whose requested URL is not the homepage is *not* recorded
as dead: the full run of the scenario ends with an empty dead-link
list — the code contains no soft-404 classification. -/
theorem c2_counterexample :
    Reachable envC2 "site.com" (initState 1 "http://site.com") c2End ∧
    c2End.dead = [] ∧
    normalize_url rC2page.url = normalize_url "http://site.com" ∧
    ("http://site.com/page" : String) ≠ "http://site.com" ∧
    (4 / 5 : ℚ) ≤ specSimilarity (specFeatureVec rC2page.body) (specFeatureVec rC2home.body) := by
  refine ⟨?_, rfl, by decide, by decide, ?_⟩
  · exact Relation.ReflTransGen.head
      (Step.claimNew _ 0 "http://site.com" [] rfl (by decide) (by decide))
      (Relation.ReflTransGen.head
        (Step.respOk _ 0 "http://site.com" rC2home rfl rfl)
        (Relation.ReflTransGen.head
          (Step.pushLinks _ 0 "http://site.com" rC2home rfl)
          (Relation.ReflTransGen.head
            (Step.claimNew _ 0 "http://site.com/page" [] rfl (by decide) (by decide))
            (Relation.ReflTransGen.head
              (Step.respOk _ 0 "http://site.com/page" rC2page rfl rfl)
              (Relation.ReflTransGen.head
                (Step.pushLinks _ 0 "http://site.com/page" rC2page rfl)
                (Relation.ReflTransGen.head
                  (Step.exitEmpty _ 0 rfl rfl)
                  Relation.ReflTransGen.refl))))))
  · show (4 / 5 : ℚ) ≤ specSimilarity (specFeatureVec rC2page.body) (specFeatureVec rC2home.body)
    norm_num [specSimilarity, specFeatureVec, rC2page, rC2home]

/-! ## Scope filtering of extracted links (C4 amended) -/

/-- Claim C4 (amended): every link discovered in a page body is filtered
against the domain scope before entering the frontier — each member of
the `extract_links` result satisfies `is_internal_link` — but the
normalized final URL of a redirect is enqueued without this check, so a
cross-host URL can still enter the queue (see the counterexample). -/
theorem c4_amended (bd base : String) (links : List String) (u : String)
    (hu : u ∈ resolveLinks bd base links) : is_internal_link bd u = true := by
  unfold resolveLinks at hu
  exact List.of_mem_filter (List.mem_dedup.mp hu)

theorem c4_amended_witness :
    is_internal_link "a.com" (normalize_url (urljoin "http://a.com" "/p")) = true :=
  c4_amended "a.com" "http://a.com" ["/p"]
    (normalize_url (urljoin "http://a.com" "/p")) (by decide)

/-! ## Character-class bridges used by the idempotence proof (C8) -/

theorem char_eq_iff_toNat (c d : Char) : c = d ↔ c.toNat = d.toNat :=
  ⟨fun h => h ▸ rfl, char_eq_of_toNat_eq⟩

theorem isUpper_eq_toNat (c : Char) : c.isUpper = decide (65 ≤ c.toNat ∧ c.toNat ≤ 90) := by
  simp [Char.isUpper, Char.toNat, UInt32.le_def, BitVec.le_def, UInt32.toNat]

theorem isLower_eq_toNat (c : Char) : c.isLower = decide (97 ≤ c.toNat ∧ c.toNat ≤ 122) := by
  simp [Char.isLower, Char.toNat, UInt32.le_def, BitVec.le_def, UInt32.toNat]

theorem isDigit_eq_toNat (c : Char) : c.isDigit = decide (48 ≤ c.toNat ∧ c.toNat ≤ 57) := by
  simp [Char.isDigit, Char.toNat, UInt32.le_def, BitVec.le_def, UInt32.toNat]

theorem isAlpha_eq_toNat (c : Char) :
    c.isAlpha = decide ((65 ≤ c.toNat ∧ c.toNat ≤ 90) ∨ (97 ≤ c.toNat ∧ c.toNat ≤ 122)) := by
  rw [Bool.eq_iff_iff]
  simp [Char.isAlpha, isUpper_eq_toNat, isLower_eq_toNat]

theorem isTabCrLf_eq_toNat (c : Char) :
    isTabCrLf c = decide (c.toNat = 9 ∨ c.toNat = 13 ∨ c.toNat = 10) := by
  rw [Bool.eq_iff_iff]
  simp [isTabCrLf, char_eq_iff_toNat,
    (show ('\t' : Char).toNat = 9 from rfl), (show ('\r' : Char).toNat = 13 from rfl),
    (show ('\n' : Char).toNat = 10 from rfl)]
  tauto

theorem netlocDelim_eq_toNat (c : Char) :
    netlocDelim c = decide (c.toNat = 47 ∨ c.toNat = 63 ∨ c.toNat = 35) := by
  rw [Bool.eq_iff_iff]
  simp [netlocDelim, char_eq_iff_toNat,
    (show ('/' : Char).toNat = 47 from rfl), (show ('?' : Char).toNat = 63 from rfl),
    (show ('#' : Char).toNat = 35 from rfl)]
  tauto

theorem schemeChar_eq_toNat (c : Char) :
    schemeChar c = decide ((65 ≤ c.toNat ∧ c.toNat ≤ 90) ∨ (97 ≤ c.toNat ∧ c.toNat ≤ 122) ∨
      (48 ≤ c.toNat ∧ c.toNat ≤ 57) ∨ c.toNat = 43 ∨ c.toNat = 45 ∨ c.toNat = 46) := by
  rw [Bool.eq_iff_iff]
  simp [schemeChar, Char.isAlphanum, isAlpha_eq_toNat, isDigit_eq_toNat, char_eq_iff_toNat,
    (show ('+' : Char).toNat = 43 from rfl), (show ('-' : Char).toNat = 45 from rfl),
    (show ('.' : Char).toNat = 46 from rfl)]
  tauto

theorem decide_toNat_pyLower (P : Nat → Prop) [DecidablePred P]
    (hP : ∀ m, 65 ≤ m → m ≤ 90 → (P (m + 32) ↔ P m)) (c : Char) :
    decide (P (pyLower c).toNat) = decide (P c.toNat) := by
  by_cases h : 65 ≤ c.toNat ∧ c.toNat ≤ 90
  · rw [pyLower_toNat, if_pos h, decide_eq_decide]
    exact hP c.toNat h.1 h.2
  · rw [pyLower_toNat, if_neg h]

theorem isTabCrLf_pyLower (c : Char) : isTabCrLf (pyLower c) = isTabCrLf c := by
  rw [isTabCrLf_eq_toNat, isTabCrLf_eq_toNat]
  exact decide_toNat_pyLower (fun t => t = 9 ∨ t = 13 ∨ t = 10)
    (fun m h1 h2 => by omega) c

theorem isC0OrSpace_pyLower (c : Char) : isC0OrSpace (pyLower c) = isC0OrSpace c := by
  show decide ((pyLower c).toNat ≤ 32) = decide (c.toNat ≤ 32)
  exact decide_toNat_pyLower (fun t => t ≤ 32) (fun m h1 h2 => by omega) c

theorem netlocDelim_pyLower (c : Char) : netlocDelim (pyLower c) = netlocDelim c := by
  rw [netlocDelim_eq_toNat, netlocDelim_eq_toNat]
  exact decide_toNat_pyLower (fun t => t = 47 ∨ t = 63 ∨ t = 35)
    (fun m h1 h2 => by omega) c

theorem schemeChar_pyLower (c : Char) : schemeChar (pyLower c) = schemeChar c := by
  rw [schemeChar_eq_toNat, schemeChar_eq_toNat]
  exact decide_toNat_pyLower
    (fun t => (65 ≤ t ∧ t ≤ 90) ∨ (97 ≤ t ∧ t ≤ 122) ∨ (48 ≤ t ∧ t ≤ 57) ∨
      t = 43 ∨ t = 45 ∨ t = 46)
    (fun m h1 h2 => by omega) c

theorem isAlpha_pyLower (c : Char) : (pyLower c).isAlpha = c.isAlpha := by
  rw [isAlpha_eq_toNat, isAlpha_eq_toNat]
  exact decide_toNat_pyLower
    (fun t => (65 ≤ t ∧ t ≤ 90) ∨ (97 ≤ t ∧ t ≤ 122))
    (fun m h1 h2 => by omega) c

theorem pyLower_eq_symbol {d : Char} (h1 : ¬ (65 ≤ d.toNat ∧ d.toNat ≤ 90))
    (h2 : ¬ (97 ≤ d.toNat ∧ d.toNat ≤ 122)) (c : Char) : pyLower c = d ↔ c = d := by
  constructor
  · intro h
    by_cases hc : 65 ≤ c.toNat ∧ c.toNat ≤ 90
    · exfalso
      have ht : (pyLower c).toNat = c.toNat + 32 := by rw [pyLower_toNat, if_pos hc]
      rw [h] at ht
      omega
    · rwa [pyLower, if_neg hc] at h
  · intro h
    subst h
    exact if_neg h1

theorem validSchemeName_toLowerL (l : List Char) :
    validSchemeName (toLowerL l) = validSchemeName l := by
  cases l with
  | nil => rfl
  | cons c r =>
    show ((pyLower c).isAlpha && (r.map pyLower).all schemeChar) =
      (c.isAlpha && r.all schemeChar)
    rw [isAlpha_pyLower, List.all_map]
    have hfun : (schemeChar ∘ pyLower) = schemeChar := funext fun x => schemeChar_pyLower x
    rw [hfun]

/-! ## List toolkit for the idempotence proof (C8) -/

theorem splitOnFirst_eq_none_iff (t : Char) (l : List Char) :
    splitOnFirst t l = none ↔ t ∉ l := by
  induction l with
  | nil => simp [splitOnFirst]
  | cons c rest ih =>
    by_cases hc : c = t
    · subst hc
      simp [splitOnFirst]
    · simp only [splitOnFirst, if_neg hc, Option.map_eq_none', ih, List.mem_cons]
      constructor
      · intro h hor
        rcases hor with h1 | h2
        · exact hc h1.symm
        · exact h h2
      · intro h ht
        exact h (Or.inr ht)

theorem splitOnFirst_eq_some (t : Char) :
    ∀ (l a b : List Char), splitOnFirst t l = some (a, b) → l = a ++ t :: b ∧ t ∉ a := by
  intro l
  induction l with
  | nil => intro a b h; exact absurd h (by simp [splitOnFirst])
  | cons c rest ih =>
    intro a b h
    by_cases hc : c = t
    · subst hc
      rw [show splitOnFirst c (c :: rest) = some ([], rest) from by simp [splitOnFirst]] at h
      have h2 := Option.some.inj h
      have ha : a = [] := (congrArg Prod.fst h2).symm
      have hb : b = rest := (congrArg Prod.snd h2).symm
      subst ha; subst hb
      exact ⟨rfl, List.not_mem_nil c⟩
    · simp only [splitOnFirst, if_neg hc] at h
      rcases hmap : splitOnFirst t rest with _ | p
      · rw [hmap] at h; exact absurd h (by simp)
      · obtain ⟨a1, b1⟩ := p
        rw [hmap] at h
        simp only [Option.map_some', Option.some.injEq, Prod.mk.injEq] at h
        obtain ⟨ha, hb⟩ := h
        obtain ⟨hl, hnm⟩ := ih a1 b1 hmap
        subst hb
        refine ⟨?_, ?_⟩
        · rw [← ha, hl]; rfl
        · rw [← ha]
          intro hmem
          rcases List.mem_cons.mp hmem with h1 | h2
          · exact hc h1.symm
          · exact hnm h2

theorem splitOnFirst_append_eq (t : Char) (a b : List Char) (ha : t ∉ a) :
    splitOnFirst t (a ++ t :: b) = some (a, b) := by
  induction a with
  | nil => simp [splitOnFirst]
  | cons c r ih =>
    have hc : c ≠ t := fun h => ha (h ▸ List.mem_cons_self c r)
    have hr : t ∉ r := fun h => ha (List.mem_cons_of_mem c h)
    simp [splitOnFirst, hc, ih hr]

theorem splitOnFirst_append_left (t : Char) (l r a b : List Char)
    (h : splitOnFirst t l = some (a, b)) : splitOnFirst t (l ++ r) = some (a, b ++ r) := by
  obtain ⟨hl, hna⟩ := splitOnFirst_eq_some t l a b h
  subst hl
  rw [List.append_assoc]
  exact splitOnFirst_append_eq t a (b ++ r) hna

theorem splitOnFirst_append_right (t : Char) (l r : List Char) (hl : t ∉ l) :
    splitOnFirst t (l ++ r) = (splitOnFirst t r).map (fun p => (l ++ p.1, p.2)) := by
  induction l with
  | nil => simp
  | cons c m ih =>
    have hc : c ≠ t := fun h => hl (h ▸ List.mem_cons_self c m)
    have hm : t ∉ m := fun h => hl (List.mem_cons_of_mem c h)
    simp only [List.cons_append, splitOnFirst, if_neg hc, List.append_eq]
    rw [ih hm]
    cases splitOnFirst t r <;> simp

theorem splitOnFirst_map (f : Char → Char) (t : Char) (hf : ∀ x, f x = t ↔ x = t) :
    ∀ l, splitOnFirst t (l.map f) =
      (splitOnFirst t l).map (fun p => (p.1.map f, p.2.map f)) := by
  intro l
  induction l with
  | nil => rfl
  | cons c rest ih =>
    by_cases hc : c = t
    · subst hc
      have hft : f c = c := (hf c).mpr rfl
      simp [splitOnFirst, hft]
    · have hfc : f c ≠ t := fun h => hc ((hf c).mp h)
      simp only [List.map_cons, splitOnFirst, if_neg hfc, if_neg hc, ih]
      cases splitOnFirst t rest <;> simp

theorem takeWhile_append_all (p : Char → Bool) (n rest : List Char)
    (hn : ∀ c ∈ n, p c = true) : (n ++ rest).takeWhile p = n ++ rest.takeWhile p := by
  induction n with
  | nil => simp
  | cons c m ih =>
    have hpc := hn c (List.mem_cons_self c m)
    have ihh := ih (fun x hx => hn x (List.mem_cons_of_mem c hx))
    simp [List.takeWhile_cons, hpc, ihh]

theorem dropWhile_append_all (p : Char → Bool) (n rest : List Char)
    (hn : ∀ c ∈ n, p c = true) : (n ++ rest).dropWhile p = rest.dropWhile p := by
  induction n with
  | nil => simp
  | cons c m ih =>
    have hpc := hn c (List.mem_cons_self c m)
    have ihh := ih (fun x hx => hn x (List.mem_cons_of_mem c hx))
    simp [List.dropWhile_cons, hpc, ihh]

theorem unquoteL_cons_ne (c : Char) (l : List Char) (hc : c ≠ '%') :
    unquoteL (c :: l) = c :: unquoteL l := by
  simp [unquoteL, hc]

theorem unquoteL_eq_self (l : List Char) (h : '%' ∉ l) : unquoteL l = l := by
  induction l with
  | nil => rfl
  | cons c rest ih =>
    have hc : c ≠ '%' := fun hh => h (hh ▸ List.mem_cons_self c rest)
    have hr : '%' ∉ rest := fun hh => h (List.mem_cons_of_mem c hh)
    rw [unquoteL_cons_ne c rest hc, ih hr]

theorem mem_toLowerL_symbol {d : Char} (h1 : ¬ (65 ≤ d.toNat ∧ d.toNat ≤ 90))
    (h2 : ¬ (97 ≤ d.toNat ∧ d.toNat ≤ 122)) (l : List Char) :
    d ∈ toLowerL l ↔ d ∈ l := by
  simp only [toLowerL, List.mem_map]
  constructor
  · rintro ⟨c, hc, he⟩
    rwa [(pyLower_eq_symbol h1 h2 c).mp he] at hc
  · intro hd
    exact ⟨d, hd, (pyLower_eq_symbol h1 h2 d).mpr rfl⟩

theorem dropWhile_dropWhile (p : Char → Bool) (l : List Char) :
    (l.dropWhile p).dropWhile p = l.dropWhile p := by
  induction l with
  | nil => rfl
  | cons c m ih =>
    by_cases h : p c
    · simp [List.dropWhile_cons, h, ih]
    · simp [List.dropWhile_cons, h]

theorem rstripSlash_decomp (l : List Char) :
    ∃ t, rstripSlash l ++ t = l ∧ ∀ c ∈ t, c = '/' := by
  refine ⟨(l.reverse.takeWhile (fun c => c = '/')).reverse, ?_, ?_⟩
  · unfold rstripSlash
    rw [← List.reverse_append, List.takeWhile_append_dropWhile, List.reverse_reverse]
  · intro x hx
    rw [List.mem_reverse] at hx
    exact of_decide_eq_true
      (@List.mem_takeWhile_imp Char (fun c => decide (c = '/')) l.reverse x hx)

theorem rstripSlash_idem (l : List Char) : rstripSlash (rstripSlash l) = rstripSlash l := by
  unfold rstripSlash
  rw [List.reverse_reverse, dropWhile_dropWhile]

theorem rstripSlash_toLowerL (l : List Char) :
    rstripSlash (toLowerL l) = toLowerL (rstripSlash l) := by
  unfold rstripSlash toLowerL
  have hfun : ((fun c => decide (c = '/')) ∘ pyLower) = (fun c => decide (c = '/')) :=
    funext fun c => decide_eq_decide.mpr (pyLower_eq_symbol (by decide) (by decide) c)
  rw [← List.map_reverse, List.dropWhile_map, hfun, List.map_reverse]

theorem dropWhile_cons_eq_self (q : Char → Bool) (c : Char) (m : List Char)
    (h : (c :: m).dropWhile q = c :: m) : q c = false := by
  by_contra hq
  rw [Bool.not_eq_false] at hq
  rw [List.dropWhile_cons, if_pos hq] at h
  have hlen := congrArg List.length h
  have hle := List.IsSuffix.length_le (List.dropWhile_suffix (l := m) q)
  simp at hlen
  omega

theorem rstripSlash_cons_keep (p : List Char) (hp : rstripSlash p = p) (hne : p ≠ []) :
    rstripSlash ('/' :: p) = '/' :: p := by
  have hdrop : p.reverse.dropWhile (fun c => c = '/') = p.reverse := by
    have h2 := congrArg List.reverse hp
    rwa [rstripSlash, List.reverse_reverse] at h2
  have hner : p.reverse ≠ [] := fun hh => hne (by simpa using congrArg List.reverse hh)
  obtain ⟨c, m, hcm⟩ : ∃ c m, p.reverse = c :: m := by
    cases hr : p.reverse with
    | nil => exact absurd hr hner
    | cons c m => exact ⟨c, m, rfl⟩
  have hqc : (decide (c = '/')) = false := by
    apply dropWhile_cons_eq_self (fun x => decide (x = '/')) c m
    rw [← hcm]
    exact hdrop
  have hstep : (('/' :: p).reverse).dropWhile (fun x => decide (x = '/')) =
      c :: (m ++ ['/']) := by
    rw [List.reverse_cons, hcm, List.cons_append, List.dropWhile_cons]
    simp [hqc]
  have hback : c :: (m ++ ['/']) = (('/' :: p).reverse) := by
    rw [List.reverse_cons, hcm, List.cons_append]
  show (('/' :: p).reverse.dropWhile (fun x => decide (x = '/'))).reverse = '/' :: p
  rw [hstep, hback, List.reverse_reverse]

/-! ## Scheme-detection lemmas (C8) -/

theorem validSchemeName_ne_nil (l : List Char) (h : validSchemeName l = true) : l ≠ [] := by
  cases l with
  | nil => exact absurd h (by simp [validSchemeName])
  | cons c r => simp

theorem validSchemeName_no_colon (l : List Char) (h : validSchemeName l = true) :
    ':' ∉ l := by
  cases l with
  | nil => exact List.not_mem_nil _
  | cons c r =>
    simp only [validSchemeName, Bool.and_eq_true] at h
    obtain ⟨hca, hall⟩ := h
    intro hmem
    rcases List.mem_cons.mp hmem with h1 | h2
    · rw [← h1] at hca
      exact absurd hca (by decide)
    · exact absurd (List.all_eq_true.mp hall _ h2) (by decide)

theorem validSchemeName_false_of_bad (a : List Char) (c : Char) (hc : c ∈ a)
    (h1 : c.isAlpha = false) (h2 : schemeChar c = false) : validSchemeName a = false := by
  cases a with
  | nil => rfl
  | cons a0 a1 =>
    show (a0.isAlpha && a1.all schemeChar) = false
    rcases List.mem_cons.mp hc with hh | hh
    · rw [← hh, h1]
      simp
    · have hfail : a1.all schemeChar = false := by
        by_contra hx
        rw [Bool.not_eq_false] at hx
        rw [List.all_eq_true.mp hx c hh] at h2
        exact absurd h2 (by simp)
      rw [hfail]
      simp

theorem splitScheme_fst_nil_iff (l : List Char) :
    (splitScheme l).1 = [] ↔
      (∀ a b, splitOnFirst ':' l = some (a, b) → validSchemeName a = false) := by
  unfold splitScheme
  cases hsp : splitOnFirst ':' l with
  | none => simp
  | some p =>
    obtain ⟨a, b⟩ := p
    have hred : (match some (a, b) with
        | none => (([] : List Char), l)
        | some (pre, post) =>
          if validSchemeName pre = true then (toLowerL pre, post) else ([], l)) =
        (if validSchemeName a = true then (toLowerL a, b) else ([], l)) := rfl
    rw [hred]
    by_cases hv : validSchemeName a = true
    · rw [if_pos hv]
      constructor
      · intro h
        exfalso
        have hanil : a = [] := by
          have := congrArg List.length h
          simpa [toLowerL] using this
        rw [hanil] at hv
        exact absurd hv (by simp [validSchemeName])
      · intro h
        rw [h a b rfl] at hv
        exact absurd hv (by simp)
    · have hv2 : validSchemeName a = false := Bool.not_eq_true _ |>.mp hv
      rw [if_neg hv]
      simp only [true_iff]
      intro a2 b2 he
      have h2 := Option.some.inj he
      have ha2 : a2 = a := (congrArg Prod.fst h2).symm
      rw [ha2]
      exact hv2

theorem splitScheme_fst_nil_of_isPre (p L : List Char) (hpre : ∃ t2, p ++ t2 = L)
    (h : (splitScheme L).1 = []) : (splitScheme p).1 = [] := by
  rw [splitScheme_fst_nil_iff] at h ⊢
  intro a b hsp
  obtain ⟨t2, rfl⟩ := hpre
  obtain ⟨hl, hna⟩ := splitOnFirst_eq_some ':' p a b hsp
  subst hl
  refine h a (b ++ t2) ?_
  rw [List.append_assoc]
  exact splitOnFirst_append_eq ':' a _ hna

theorem splitScheme_fst_nil_toLowerL (p : List Char) (h : (splitScheme p).1 = []) :
    (splitScheme (toLowerL p)).1 = [] := by
  rw [splitScheme_fst_nil_iff] at h ⊢
  intro a b hsp
  have hmap := splitOnFirst_map pyLower ':'
    (fun x => pyLower_eq_symbol (by decide) (by decide) x) p
  rw [show toLowerL p = p.map pyLower from rfl, hmap] at hsp
  cases hsp0 : splitOnFirst ':' p with
  | none => rw [hsp0] at hsp; exact absurd hsp (by simp)
  | some q =>
    obtain ⟨a1, b1⟩ := q
    rw [hsp0] at hsp
    simp only [Option.map_some', Option.some.injEq, Prod.mk.injEq] at hsp
    obtain ⟨ha, hb⟩ := hsp
    rw [← ha, show (List.map pyLower a1) = toLowerL a1 from rfl, validSchemeName_toLowerL]
    exact h a1 b1 hsp0

theorem splitScheme_valid_append (s post : List Char) (hv : validSchemeName s = true)
    (hlow : toLowerL s = s) : splitScheme (s ++ ':' :: post) = (s, post) := by
  unfold splitScheme
  rw [splitOnFirst_append_eq ':' s post (validSchemeName_no_colon s hv)]
  simp [hv, hlow]

theorem splitOnFirst_cons_structure (t x : Char) (l a b : List Char) (hx : x ≠ t)
    (h : splitOnFirst t (x :: l) = some (a, b)) : ∃ a1, a = x :: a1 := by
  obtain ⟨hl, hna⟩ := splitOnFirst_eq_some t _ a b h
  cases a with
  | nil =>
    simp only [List.nil_append] at hl
    exact absurd (List.head_eq_of_cons_eq hl) hx
  | cons a0 a1 =>
    have hx0 : x = a0 := List.head_eq_of_cons_eq hl
    exact ⟨a1, by rw [hx0]⟩

/-! ## Stage lemmas for re-splitting a reassembled URL (C8) -/

theorem validSchemeName_all (l : List Char) (h : validSchemeName l = true) :
    ∀ c ∈ l, schemeChar c = true := by
  cases l with
  | nil => intro c hc; exact absurd hc (List.not_mem_nil c)
  | cons c0 r =>
    simp only [validSchemeName, Bool.and_eq_true] at h
    obtain ⟨hca, hall⟩ := h
    intro c hc
    rcases List.mem_cons.mp hc with h1 | h2
    · subst h1
      rw [schemeChar_eq_toNat]
      rw [isAlpha_eq_toNat] at hca
      have := of_decide_eq_true hca
      exact decide_eq_true (by omega)
    · exact List.all_eq_true.mp hall _ h2

set_option maxHeartbeats 1000000 in
theorem urlunsplitL_eq (s n p q : List Char) :
    urlunsplitL ⟨s, n, p, q, []⟩ =
      (if q ≠ [] then
        (if s ≠ [] then
          s ++ ':' :: (if n ≠ [] ∨ p.take 2 = ['/', '/'] then
            ('/' :: '/' :: n) ++ (if p ≠ [] ∧ p.take 1 ≠ ['/'] then '/' :: p else p)
          else p)
        else (if n ≠ [] ∨ p.take 2 = ['/', '/'] then
            ('/' :: '/' :: n) ++ (if p ≠ [] ∧ p.take 1 ≠ ['/'] then '/' :: p else p)
          else p)) ++ '?' :: q
      else
        (if s ≠ [] then
          s ++ ':' :: (if n ≠ [] ∨ p.take 2 = ['/', '/'] then
            ('/' :: '/' :: n) ++ (if p ≠ [] ∧ p.take 1 ≠ ['/'] then '/' :: p else p)
          else p)
        else (if n ≠ [] ∨ p.take 2 = ['/', '/'] then
            ('/' :: '/' :: n) ++ (if p ≠ [] ∧ p.take 1 ≠ ['/'] then '/' :: p else p)
          else p))) := rfl

set_option maxHeartbeats 1000000 in
theorem mem_urlunsplit (s n p q : List Char) (c : Char)
    (hc : c ∈ urlunsplitL ⟨s, n, p, q, []⟩) :
    c ∈ s ∨ c ∈ n ∨ c ∈ p ∨ c ∈ q ∨ c = '/' ∨ c = ':' ∨ c = '?' := by
  rw [urlunsplitL_eq] at hc
  split_ifs at hc <;>
      (try simp only [List.mem_append, List.mem_cons, List.not_mem_nil, or_false] at hc) <;>
    tauto

theorem splitFragment_nil (R : List Char) (h : '#' ∉ R) : splitFragment R = (R, []) := by
  unfold splitFragment
  rw [(splitOnFirst_eq_none_iff '#' R).mpr h]

theorem splitQuery_parse (P2 Q qp : List Char) (hP : '?' ∉ P2)
    (hqp : qp = if Q ≠ [] then '?' :: Q else []) :
    splitQuery (P2 ++ qp) = (P2, Q) := by
  subst hqp
  by_cases hq : Q ≠ []
  · rw [if_pos hq]
    unfold splitQuery
    rw [splitOnFirst_append_eq '?' P2 Q hP]
  · rw [if_neg hq]
    push_neg at hq
    subst hq
    unfold splitQuery
    rw [List.append_nil, (splitOnFirst_eq_none_iff '?' P2).mpr hP]

theorem splitNetloc_parse (N R : List Char) (hN : ∀ c ∈ N, netlocDelim c = false)
    (hR : R = [] ∨ ∃ c m, R = c :: m ∧ netlocDelim c = true) :
    splitNetloc ('/' :: '/' :: (N ++ R)) = (N, R) := by
  show (((N ++ R).takeWhile fun c => !netlocDelim c),
        ((N ++ R).dropWhile fun c => !netlocDelim c)) = (N, R)
  have hNp : ∀ c ∈ N, (!netlocDelim c) = true := fun c hc => by rw [hN c hc]; rfl
  rw [takeWhile_append_all _ N R hNp, dropWhile_append_all _ N R hNp]
  rcases hR with rfl | ⟨c, m, rfl, hcd⟩
  · simp
  · rw [List.takeWhile_cons, List.dropWhile_cons]
    simp [hcd]

theorem splitNetloc_no (R : List Char) (h : R.take 2 ≠ ['/', '/']) :
    splitNetloc R = ([], R) := by
  unfold splitNetloc
  split
  · next r =>
    exfalso
    exact h (by simp)
  · rfl

theorem splitScheme_eq_of_fst_nil (X : List Char) (h : (splitScheme X).1 = []) :
    splitScheme X = ([], X) := by
  unfold splitScheme at h ⊢
  cases hsp : splitOnFirst ':' X with
  | none => rfl
  | some pr =>
    obtain ⟨a, b⟩ := pr
    rw [hsp] at h
    by_cases hv : validSchemeName a = true
    · exfalso
      simp only [if_pos hv] at h
      have hanil : a = [] := by
        have := congrArg List.length h
        simpa [toLowerL] using this
      rw [hanil] at hv
      exact absurd hv (by simp [validSchemeName])
    · simp only [if_neg hv]

theorem toLowerL_eq_nil_iff (l : List Char) : toLowerL l = [] ↔ l = [] := by
  simp [toLowerL]

theorem toLowerL_append (a b : List Char) :
    toLowerL (a ++ b) = toLowerL a ++ toLowerL b :=
  List.map_append pyLower a b

theorem toLowerL_cons (c : Char) (l : List Char) :
    toLowerL (c :: l) = pyLower c :: toLowerL l := rfl

theorem mem_toLowerL (c : Char) (l : List Char) :
    c ∈ toLowerL l ↔ ∃ c0 ∈ l, pyLower c0 = c := by
  simp [toLowerL]

theorem splitScheme_parse (s R : List Char) (hs : s = [] ∨ validSchemeName s = true)
    (hslow : toLowerL s = s) (hnoscheme : s = [] → (splitScheme R).1 = []) :
    splitScheme (if s ≠ [] then s ++ ':' :: R else R) = (s, R) := by
  by_cases h : s ≠ []
  · rw [if_pos h]
    rcases hs with rfl | hv
    · exact absurd rfl h
    · exact splitScheme_valid_append s R hv hslow
  · rw [if_neg h]
    push_neg at h
    subst h
    exact splitScheme_eq_of_fst_nil R (hnoscheme rfl)

theorem netloc_no_hash (n : List Char) (hn : ∀ c ∈ n, netlocDelim c = false) :
    '#' ∉ n := by
  intro hmem
  have := hn _ hmem
  rw [netlocDelim_eq_toNat] at this
  exact absurd this (by decide)

theorem scheme_no_hash (s : List Char) (hs : s = [] ∨ validSchemeName s = true) :
    '#' ∉ s := by
  rcases hs with rfl | hv
  · exact List.not_mem_nil _
  · intro hmem
    have := validSchemeName_all s hv _ hmem
    rw [schemeChar_eq_toNat] at this
    exact absurd this (by decide)

theorem urlsplit_assemble (X S R N R2 P2 Q2 : List Char)
    (hclean : preClean X = X)
    (hsch : splitScheme X = (S, R))
    (hnet : splitNetloc R = (N, R2))
    (hfrag : '#' ∉ R2)
    (hq : splitQuery R2 = (P2, Q2)) :
    urlsplitL X = ⟨S, N, P2, Q2, []⟩ := by
  unfold urlsplitL
  simp only [hclean, hsch, hnet, splitFragment_nil R2 hfrag, hq]

theorem normalize_fix (X S N P2 Q2 : List Char)
    (hsplit : urlsplitL X = ⟨S, N, P2, Q2, []⟩)
    (hrsP : rstripSlash P2 = P2)
    (hrebuild : urlunsplitL ⟨S, N, P2, Q2, []⟩ = X)
    (hpcX : '%' ∉ X) (hlow : toLowerL X = X) :
    normalizeUrlL X = X := by
  simp only [normalizeUrlL, hsplit]
  rw [hrsP, hrebuild, unquoteL_eq_self X hpcX, hlow]

theorem toLowerL_qpart (q : List Char) :
    toLowerL (if q ≠ [] then '?' :: q else []) =
      (if toLowerL q ≠ [] then '?' :: toLowerL q else []) := by
  by_cases h4 : q ≠ []
  · rw [if_pos h4, if_pos (by simpa [toLowerL_eq_nil_iff] using h4), toLowerL_cons,
      (show pyLower '?' = '?' from by decide)]
  · push_neg at h4
    subst h4
    simp [toLowerL]

theorem splitScheme_fst_nil_p_qpart (p q : List Char)
    (hp : (splitScheme p).1 = []) :
    (splitScheme (p ++ (if q ≠ [] then '?' :: q else []))).1 = [] := by
  rw [splitScheme_fst_nil_iff]
  intro a b hsp
  by_cases hcp : ':' ∈ p
  · cases hsp0 : splitOnFirst ':' p with
    | none => exact absurd ((splitOnFirst_eq_none_iff ':' p).mp hsp0) (fun h => h hcp)
    | some pr =>
      obtain ⟨a0, b0⟩ := pr
      have hleft := splitOnFirst_append_left ':' p (if q ≠ [] then '?' :: q else []) a0 b0 hsp0
      rw [hleft] at hsp
      have h2 := Option.some.inj hsp
      have ha : a = a0 := (congrArg Prod.fst h2).symm
      rw [ha]
      rw [splitScheme_fst_nil_iff] at hp
      exact hp a0 b0 hsp0
  · rw [splitOnFirst_append_right ':' p _ hcp] at hsp
    by_cases h4 : q ≠ []
    · rw [if_pos h4] at hsp
      cases hsp1 : splitOnFirst ':' ('?' :: q) with
      | none => rw [hsp1] at hsp; exact absurd hsp (by simp)
      | some pr =>
        obtain ⟨a1, b1⟩ := pr
        obtain ⟨a2, ha2⟩ := splitOnFirst_cons_structure ':' '?' q a1 b1 (by decide) hsp1
        rw [hsp1] at hsp
        simp only [Option.map_some', Option.some.injEq, Prod.mk.injEq] at hsp
        obtain ⟨haa, hbb⟩ := hsp
        rw [← haa, ha2]
        exact validSchemeName_false_of_bad _ '?'
          (List.mem_append.mpr (Or.inr (List.mem_cons_self _ _))) (by decide) (by decide)
    · rw [if_neg h4] at hsp
      exact absurd hsp (by simp [splitOnFirst])

theorem take2_toLowerL_p_qpart (p q : List Char) (h : p.take 2 ≠ ['/', '/']) :
    (toLowerL p ++ (if toLowerL q ≠ [] then '?' :: toLowerL q else [])).take 2 ≠
      ['/', '/'] := by
  intro hcontra
  cases p with
  | nil =>
    simp only [toLowerL, List.map_nil, List.nil_append] at hcontra
    by_cases h4 : toLowerL q ≠ []
    · rw [if_pos (show List.map pyLower q ≠ [] from h4)] at hcontra
      simp [List.take] at hcontra
    · rw [if_neg (show ¬ List.map pyLower q ≠ [] from h4)] at hcontra
      simp at hcontra
  | cons c1 r1 =>
    cases r1 with
    | nil =>
      simp only [toLowerL, List.map_cons, List.map_nil, List.cons_append,
        List.nil_append] at hcontra
      by_cases h4 : toLowerL q ≠ []
      · rw [if_pos (show List.map pyLower q ≠ [] from h4)] at hcontra
        simp [List.take] at hcontra
      · rw [if_neg (show ¬ List.map pyLower q ≠ [] from h4)] at hcontra
        simp [List.take] at hcontra
    | cons c2 m =>
      simp only [toLowerL, List.map_cons, List.cons_append] at hcontra
      simp only [List.take, List.cons.injEq, and_true] at hcontra
      obtain ⟨h1, h2⟩ := hcontra
      rw [pyLower_eq_symbol (by decide) (by decide) c1] at h1
      rw [pyLower_eq_symbol (by decide) (by decide) c2] at h2
      exact h (by rw [h1, h2]; rfl)

set_option maxHeartbeats 2000000 in
theorem resplit_withnetloc (s n p p2 q : List Char)
    (hbr : n ≠ [] ∨ p.take 2 = ['/', '/'])
    (hp2 : (if p ≠ [] ∧ p.take 1 ≠ ['/'] then '/' :: p else p) = p2)
    (hs : s = [] ∨ validSchemeName s = true)
    (hslow : toLowerL s = s)
    (hn : ∀ c ∈ n, netlocDelim c = false)
    (hp2cases : p2 = [] ∨ ∃ m, p2 = '/' :: m)
    (hp2q : '?' ∉ p2) (hp2h : '#' ∉ p2) (hqq : '#' ∉ q)
    (hp2rs : rstripSlash p2 = p2)
    (hXtab : ∀ c ∈ toLowerL (urlunsplitL ⟨s, n, p, q, []⟩), isTabCrLf c = false)
    (hXpc : '%' ∉ toLowerL (urlunsplitL ⟨s, n, p, q, []⟩)) :
    normalizeUrlL (toLowerL (urlunsplitL ⟨s, n, p, q, []⟩)) =
      toLowerL (urlunsplitL ⟨s, n, p, q, []⟩) := by
  have hCform : urlunsplitL ⟨s, n, p, q, []⟩ =
      (if s ≠ [] then
        s ++ ':' :: (('/' :: '/' :: n) ++ (p2 ++ (if q ≠ [] then '?' :: q else [])))
      else ('/' :: '/' :: n) ++ (p2 ++ (if q ≠ [] then '?' :: q else []))) := by
    rw [urlunsplitL_eq, hp2]
    by_cases h4 : q ≠ [] <;> by_cases h3 : s ≠ [] <;>
      simp [h4, h3, hbr, List.append_assoc]
  have hXform : toLowerL (urlunsplitL ⟨s, n, p, q, []⟩) =
      (if s ≠ [] then
        s ++ ':' ::
          toLowerL (('/' :: '/' :: n) ++ (p2 ++ (if q ≠ [] then '?' :: q else [])))
      else toLowerL (('/' :: '/' :: n) ++ (p2 ++ (if q ≠ [] then '?' :: q else [])))) := by
    rw [hCform]
    by_cases h3 : s ≠ []
    · rw [if_pos h3, if_pos h3, toLowerL_append, toLowerL_cons, hslow,
        (show pyLower ':' = ':' from by decide)]
    · rw [if_neg h3, if_neg h3]
  have hRL : toLowerL (('/' :: '/' :: n) ++ (p2 ++ (if q ≠ [] then '?' :: q else []))) =
      '/' :: '/' ::
        (toLowerL n ++ (toLowerL p2 ++ toLowerL (if q ≠ [] then '?' :: q else []))) := by
    rw [toLowerL_append, toLowerL_append, toLowerL_cons, toLowerL_cons,
      (show pyLower '/' = '/' from by decide)]
    simp [List.cons_append]
  have hclean : preClean (toLowerL (urlunsplitL ⟨s, n, p, q, []⟩)) =
      toLowerL (urlunsplitL ⟨s, n, p, q, []⟩) := by
    unfold preClean
    have hdw : (toLowerL (urlunsplitL ⟨s, n, p, q, []⟩)).dropWhile isC0OrSpace =
        toLowerL (urlunsplitL ⟨s, n, p, q, []⟩) := by
      rw [hXform]
      by_cases h3 : s ≠ []
      · rw [if_pos h3]
        obtain ⟨s0, s1, hs01⟩ : ∃ s0 s1, s = s0 :: s1 := by
          cases hs0 : s with
          | nil => exact absurd hs0 h3
          | cons a b => exact ⟨a, b, rfl⟩
        rcases hs with hnil | hv
        · exact absurd hnil h3
        · rw [hs01] at hv
          have halpha : s0.isAlpha = true := by
            simp only [validSchemeName, Bool.and_eq_true] at hv
            exact hv.1
          have hC0 : isC0OrSpace s0 = false := by
            rw [isAlpha_eq_toNat] at halpha
            have := of_decide_eq_true halpha
            show decide (s0.toNat ≤ 32) = false
            exact decide_eq_false (by omega)
          rw [hs01, List.cons_append, List.dropWhile_cons]
          simp [hC0]
      · rw [if_neg h3, hRL, List.dropWhile_cons]
        simp [show isC0OrSpace '/' = false from by decide]
    rw [hdw]
    exact List.filter_eq_self.mpr (fun a ha => by rw [hXtab a ha]; rfl)
  have hsch : splitScheme (toLowerL (urlunsplitL ⟨s, n, p, q, []⟩)) =
      (s, toLowerL (('/' :: '/' :: n) ++ (p2 ++ (if q ≠ [] then '?' :: q else [])))) := by
    rw [hXform]
    apply splitScheme_parse _ _ hs hslow
    intro _
    rw [hRL, splitScheme_fst_nil_iff]
    intro a b hsp
    obtain ⟨a1, ha1⟩ := splitOnFirst_cons_structure ':' '/' _ a b (by decide) hsp
    exact validSchemeName_false_of_bad a '/' (ha1 ▸ List.mem_cons_self '/' a1)
      (by decide) (by decide)
  have hnet : splitNetloc
      (toLowerL (('/' :: '/' :: n) ++ (p2 ++ (if q ≠ [] then '?' :: q else [])))) =
      (toLowerL n, toLowerL p2 ++ toLowerL (if q ≠ [] then '?' :: q else [])) := by
    rw [hRL]
    apply splitNetloc_parse
    · intro c hc
      rw [mem_toLowerL] at hc
      obtain ⟨c0, hc0, he⟩ := hc
      rw [← he, netlocDelim_pyLower]
      exact hn c0 hc0
    · rcases hp2cases with hnil | ⟨m, hm⟩
      · rw [hnil, show toLowerL ([] : List Char) = [] from rfl, List.nil_append,
          toLowerL_qpart q]
        by_cases h4 : toLowerL q ≠ []
        · rw [if_pos h4]
          exact Or.inr ⟨'?', toLowerL q, rfl, by decide⟩
        · rw [if_neg h4]
          exact Or.inl rfl
      · rw [hm, toLowerL_cons, (show pyLower '/' = '/' from by decide), List.cons_append]
        exact Or.inr ⟨'/', _, rfl, by decide⟩
  have hfragR : '#' ∉ toLowerL p2 ++ toLowerL (if q ≠ [] then '?' :: q else []) := by
    intro hmem
    rcases List.mem_append.mp hmem with hm | hm
    · rw [mem_toLowerL] at hm
      obtain ⟨c0, hc0, he⟩ := hm
      rw [pyLower_eq_symbol (by decide) (by decide) c0] at he
      exact hp2h (he ▸ hc0)
    · rw [toLowerL_qpart q] at hm
      by_cases h4 : toLowerL q ≠ []
      · rw [if_pos h4] at hm
        rcases List.mem_cons.mp hm with hh | hh
        · exact absurd hh (by decide)
        · rw [mem_toLowerL] at hh
          obtain ⟨c0, hc0, he⟩ := hh
          rw [pyLower_eq_symbol (by decide) (by decide) c0] at he
          exact hqq (he ▸ hc0)
      · rw [if_neg h4] at hm
        exact absurd hm (List.not_mem_nil _)
  have hquery : splitQuery
      (toLowerL p2 ++ toLowerL (if q ≠ [] then '?' :: q else [])) =
      (toLowerL p2, toLowerL q) := by
    apply splitQuery_parse
    · intro hmem
      rw [mem_toLowerL] at hmem
      obtain ⟨c0, hc0, he⟩ := hmem
      rw [pyLower_eq_symbol (by decide) (by decide) c0] at he
      exact hp2q (he ▸ hc0)
    · exact toLowerL_qpart q
  have hassemble : urlsplitL (toLowerL (urlunsplitL ⟨s, n, p, q, []⟩)) =
      ⟨s, toLowerL n, toLowerL p2, toLowerL q, []⟩ :=
    urlsplit_assemble _ _ _ _ _ _ _ hclean hsch hnet hfragR hquery
  have hrsP : rstripSlash (toLowerL p2) = toLowerL p2 := by
    rw [rstripSlash_toLowerL, hp2rs]
  have hnopre : ¬ (toLowerL p2 ≠ [] ∧ (toLowerL p2).take 1 ≠ ['/']) := by
    rcases hp2cases with hnil | ⟨m, hm⟩
    · rw [hnil]
      simp [toLowerL]
    · rw [hm, toLowerL_cons, (show pyLower '/' = '/' from by decide)]
      intro hand
      exact hand.2 rfl
  have hcond : toLowerL n ≠ [] ∨ (toLowerL p2).take 2 = ['/', '/'] := by
    rcases hbr with hn1 | ht2
    · exact Or.inl (by simpa [toLowerL_eq_nil_iff] using hn1)
    · right
      obtain ⟨m, hpm⟩ : ∃ m, p = '/' :: '/' :: m := by
        cases p with
        | nil => simp at ht2
        | cons c1 r1 =>
          cases r1 with
          | nil => simp [List.take] at ht2
          | cons c2 m =>
            simp only [List.take, List.cons.injEq, and_true] at ht2
            exact ⟨m, by rw [ht2.1, ht2.2]⟩
      have hp2p : p2 = p := by
        rw [← hp2, if_neg]
        intro hand
        exact hand.2 (by rw [hpm]; rfl)
      rw [hp2p, hpm, toLowerL_cons, toLowerL_cons,
        (show pyLower '/' = '/' from by decide)]
      rfl
  have hrebuild : urlunsplitL ⟨s, toLowerL n, toLowerL p2, toLowerL q, []⟩ =
      toLowerL (urlunsplitL ⟨s, n, p, q, []⟩) := by
    rw [hXform, urlunsplitL_eq]
    have hq4 : (toLowerL q ≠ []) ↔ (q ≠ []) := by simp [toLowerL_eq_nil_iff]
    by_cases h4 : q ≠ [] <;> by_cases h3 : s ≠ [] <;>
      rw [hRL, toLowerL_qpart q] <;>
        simp [h4, h3, hcond, hnopre, hq4, List.append_assoc, List.cons_append]
  exact normalize_fix _ s (toLowerL n) (toLowerL p2) (toLowerL q) hassemble hrsP
    hrebuild hXpc (toLowerL_idem _)

set_option maxHeartbeats 2000000 in
theorem resplit_nonetloc (s p q : List Char)
    (hbr2 : p.take 2 ≠ ['/', '/'])
    (hs : s = [] ∨ validSchemeName s = true)
    (hslow : toLowerL s = s)
    (hpq : '?' ∉ p) (hph : '#' ∉ p) (hqq : '#' ∉ q)
    (hrs : rstripSlash p = p)
    (hnos : s = [] → (splitScheme p).1 = [])
    (hhead : s = [] → ∀ c m, p = c :: m → isC0OrSpace c = false)
    (hXtab : ∀ c ∈ toLowerL (urlunsplitL ⟨s, [], p, q, []⟩), isTabCrLf c = false)
    (hXpc : '%' ∉ toLowerL (urlunsplitL ⟨s, [], p, q, []⟩)) :
    normalizeUrlL (toLowerL (urlunsplitL ⟨s, [], p, q, []⟩)) =
      toLowerL (urlunsplitL ⟨s, [], p, q, []⟩) := by
  have hCform : urlunsplitL ⟨s, [], p, q, []⟩ =
      (if s ≠ [] then s ++ ':' :: (p ++ (if q ≠ [] then '?' :: q else []))
       else p ++ (if q ≠ [] then '?' :: q else [])) := by
    rw [urlunsplitL_eq]
    have hc : ¬ (([] : List Char) ≠ [] ∨ p.take 2 = ['/', '/']) := by
      simp [hbr2]
    by_cases h4 : q ≠ [] <;> by_cases h3 : s ≠ [] <;>
      simp [h4, h3, hc, hbr2, List.append_assoc]
  have hXform : toLowerL (urlunsplitL ⟨s, [], p, q, []⟩) =
      (if s ≠ [] then s ++ ':' :: toLowerL (p ++ (if q ≠ [] then '?' :: q else []))
       else toLowerL (p ++ (if q ≠ [] then '?' :: q else []))) := by
    rw [hCform]
    by_cases h3 : s ≠ []
    · rw [if_pos h3, if_pos h3, toLowerL_append, toLowerL_cons, hslow,
        (show pyLower ':' = ':' from by decide)]
    · rw [if_neg h3, if_neg h3]
  have hRL : toLowerL (p ++ (if q ≠ [] then '?' :: q else [])) =
      toLowerL p ++ (if toLowerL q ≠ [] then '?' :: toLowerL q else []) := by
    rw [toLowerL_append, toLowerL_qpart q]
  have hclean : preClean (toLowerL (urlunsplitL ⟨s, [], p, q, []⟩)) =
      toLowerL (urlunsplitL ⟨s, [], p, q, []⟩) := by
    unfold preClean
    have hdw : (toLowerL (urlunsplitL ⟨s, [], p, q, []⟩)).dropWhile isC0OrSpace =
        toLowerL (urlunsplitL ⟨s, [], p, q, []⟩) := by
      rw [hXform]
      by_cases h3 : s ≠ []
      · rw [if_pos h3]
        obtain ⟨s0, s1, hs01⟩ : ∃ s0 s1, s = s0 :: s1 := by
          cases hs0 : s with
          | nil => exact absurd hs0 h3
          | cons a b => exact ⟨a, b, rfl⟩
        rcases hs with hnil | hv
        · exact absurd hnil h3
        · rw [hs01] at hv
          have halpha : s0.isAlpha = true := by
            simp only [validSchemeName, Bool.and_eq_true] at hv
            exact hv.1
          have hC0 : isC0OrSpace s0 = false := by
            rw [isAlpha_eq_toNat] at halpha
            have := of_decide_eq_true halpha
            show decide (s0.toNat ≤ 32) = false
            exact decide_eq_false (by omega)
          rw [hs01, List.cons_append, List.dropWhile_cons]
          simp [hC0]
      · have hs0 : s = [] := by push_neg at h3; exact h3
        rw [if_neg h3, hRL]
        cases hp0 : p with
        | nil =>
          rw [show toLowerL ([] : List Char) = [] from rfl, List.nil_append]
          by_cases h4 : toLowerL q ≠ []
          · rw [if_pos h4, List.dropWhile_cons]
            simp [show isC0OrSpace '?' = false from by decide]
          · rw [if_neg h4]
            simp
        | cons c0 m0 =>
          have hc0 : isC0OrSpace c0 = false := hhead hs0 c0 m0 hp0
          rw [toLowerL_cons, List.cons_append, List.dropWhile_cons]
          simp [isC0OrSpace_pyLower, hc0]
    rw [hdw]
    exact List.filter_eq_self.mpr (fun a ha => by rw [hXtab a ha]; rfl)
  have hsch : splitScheme (toLowerL (urlunsplitL ⟨s, [], p, q, []⟩)) =
      (s, toLowerL (p ++ (if q ≠ [] then '?' :: q else []))) := by
    rw [hXform]
    apply splitScheme_parse _ _ hs hslow
    intro hsnil
    rw [hRL]
    exact splitScheme_fst_nil_p_qpart (toLowerL p) (toLowerL q)
      (splitScheme_fst_nil_toLowerL p (hnos hsnil))
  have hnet : splitNetloc (toLowerL (p ++ (if q ≠ [] then '?' :: q else []))) =
      ([], toLowerL (p ++ (if q ≠ [] then '?' :: q else []))) := by
    apply splitNetloc_no
    rw [hRL]
    exact take2_toLowerL_p_qpart p q hbr2
  have hfragR : '#' ∉ toLowerL (p ++ (if q ≠ [] then '?' :: q else [])) := by
    rw [hRL]
    intro hmem
    rcases List.mem_append.mp hmem with hm | hm
    · rw [mem_toLowerL] at hm
      obtain ⟨c0, hc0, he⟩ := hm
      rw [pyLower_eq_symbol (by decide) (by decide) c0] at he
      exact hph (he ▸ hc0)
    · by_cases h4 : toLowerL q ≠ []
      · rw [if_pos h4] at hm
        rcases List.mem_cons.mp hm with hh | hh
        · exact absurd hh (by decide)
        · rw [mem_toLowerL] at hh
          obtain ⟨c0, hc0, he⟩ := hh
          rw [pyLower_eq_symbol (by decide) (by decide) c0] at he
          exact hqq (he ▸ hc0)
      · rw [if_neg h4] at hm
        exact absurd hm (List.not_mem_nil _)
  have hquery : splitQuery (toLowerL (p ++ (if q ≠ [] then '?' :: q else []))) =
      (toLowerL p, toLowerL q) := by
    rw [hRL]
    apply splitQuery_parse
    · intro hmem
      rw [mem_toLowerL] at hmem
      obtain ⟨c0, hc0, he⟩ := hmem
      rw [pyLower_eq_symbol (by decide) (by decide) c0] at he
      exact hpq (he ▸ hc0)
    · rfl
  have hassemble : urlsplitL (toLowerL (urlunsplitL ⟨s, [], p, q, []⟩)) =
      ⟨s, [], toLowerL p, toLowerL q, []⟩ := by
    refine urlsplit_assemble _ _ _ _ _ _ _ hclean hsch ?_ hfragR hquery
    exact hnet
  have hrsP : rstripSlash (toLowerL p) = toLowerL p := by
    rw [rstripSlash_toLowerL, hrs]
  have hrebuild : urlunsplitL ⟨s, [], toLowerL p, toLowerL q, []⟩ =
      toLowerL (urlunsplitL ⟨s, [], p, q, []⟩) := by
    rw [hXform, urlunsplitL_eq]
    have hq4 : (toLowerL q ≠ []) ↔ (q ≠ []) := by simp [toLowerL_eq_nil_iff]
    have ht2 : (toLowerL p).take 2 ≠ ['/', '/'] := by
      intro h2
      apply hbr2
      have hmt : List.map pyLower (p.take 2) = ['/', '/'] := by
        rw [List.map_take]
        exact h2
      cases hp0 : p.take 2 with
      | nil => rw [hp0] at hmt; exact absurd hmt (by simp)
      | cons a r =>
        cases r with
        | nil => rw [hp0] at hmt; exact absurd hmt (by simp)
        | cons b r2 =>
          rw [hp0] at hmt
          simp only [List.map_cons, List.cons.injEq] at hmt
          obtain ⟨h1, h2b, h3b⟩ := hmt
          rw [pyLower_eq_symbol (by decide) (by decide) a] at h1
          rw [pyLower_eq_symbol (by decide) (by decide) b] at h2b
          have hr2 : r2 = [] := by simpa using h3b
          rw [h1, h2b, hr2]
    have hc2 : ¬ (([] : List Char) ≠ [] ∨ (toLowerL p).take 2 = ['/', '/']) := by
      simp [ht2]
    by_cases h4 : q ≠ [] <;> by_cases h3 : s ≠ [] <;>
      rw [hRL] <;> simp [h4, h3, hc2, ht2, hq4, List.append_assoc]
  exact normalize_fix _ s [] (toLowerL p) (toLowerL q) hassemble hrsP hrebuild hXpc
    (toLowerL_idem _)

/-! ## Properties of the first-pass split components (C8) -/

theorem splitScheme_fst_cases (l : List Char) :
    (splitScheme l).1 = [] ∨ validSchemeName (splitScheme l).1 = true := by
  unfold splitScheme
  cases hsp : splitOnFirst ':' l with
  | none => exact Or.inl rfl
  | some pr =>
    obtain ⟨a, b⟩ := pr
    by_cases hv : validSchemeName a = true
    · simp only [if_pos hv]
      refine Or.inr ?_
      show validSchemeName (toLowerL a) = true
      rw [validSchemeName_toLowerL]
      exact hv
    · simp only [if_neg hv]
      exact Or.inl trivial

theorem splitScheme_fst_lower (l : List Char) :
    toLowerL (splitScheme l).1 = (splitScheme l).1 := by
  unfold splitScheme
  cases hsp : splitOnFirst ':' l with
  | none => rfl
  | some pr =>
    obtain ⟨a, b⟩ := pr
    by_cases hv : validSchemeName a = true
    · simp only [if_pos hv]
      exact toLowerL_idem a
    · simp only [if_neg hv]
      rfl

theorem splitScheme_fst_chars (l : List Char) :
    ∀ c ∈ (splitScheme l).1, ∃ c0 ∈ l, pyLower c0 = c := by
  unfold splitScheme
  cases hsp : splitOnFirst ':' l with
  | none => intro c hc; exact absurd hc (List.not_mem_nil c)
  | some pr =>
    obtain ⟨a, b⟩ := pr
    obtain ⟨hl, hna⟩ := splitOnFirst_eq_some ':' l a b hsp
    by_cases hv : validSchemeName a = true
    · simp only [if_pos hv]
      intro c hc
      rw [mem_toLowerL] at hc
      obtain ⟨c0, hc0, he⟩ := hc
      exact ⟨c0, by rw [hl]; exact List.mem_append.mpr (Or.inl hc0), he⟩
    · simp only [if_neg hv]
      intro c hc
      exact absurd hc (List.not_mem_nil c)

theorem splitScheme_snd_subset (l : List Char) :
    ∀ c ∈ (splitScheme l).2, c ∈ l := by
  unfold splitScheme
  cases hsp : splitOnFirst ':' l with
  | none => intro c hc; exact hc
  | some pr =>
    obtain ⟨a, b⟩ := pr
    obtain ⟨hl, hna⟩ := splitOnFirst_eq_some ':' l a b hsp
    by_cases hv : validSchemeName a = true
    · simp only [if_pos hv]
      intro c hc
      rw [hl]
      exact List.mem_append.mpr (Or.inr (List.mem_cons_of_mem ':' hc))
    · simp only [if_neg hv]
      intro c hc
      exact hc

theorem splitNetloc_fst_delim (l : List Char) :
    ∀ c ∈ (splitNetloc l).1, netlocDelim c = false := by
  unfold splitNetloc
  split
  · intro c hc
    have := List.mem_takeWhile_imp hc
    simpa using this
  · intro c hc
    exact absurd hc (List.not_mem_nil c)

theorem splitNetloc_fst_subset (l : List Char) :
    ∀ c ∈ (splitNetloc l).1, c ∈ l := by
  unfold splitNetloc
  split
  · next r =>
    intro c hc
    have hsub := List.Sublist.subset (@List.takeWhile_sublist Char r (fun c => !netlocDelim c))
    exact List.mem_cons_of_mem '/' (List.mem_cons_of_mem '/' (hsub hc))
  · intro c hc
    exact absurd hc (List.not_mem_nil c)

theorem splitNetloc_snd_subset (l : List Char) :
    ∀ c ∈ (splitNetloc l).2, c ∈ l := by
  unfold splitNetloc
  split
  · next r =>
    intro c hc
    have hsub := List.IsSuffix.subset (@List.dropWhile_suffix Char r (fun c => !netlocDelim c))
    exact List.mem_cons_of_mem '/' (List.mem_cons_of_mem '/' (hsub hc))
  · intro c hc
    exact hc

theorem splitFragment_fst_isPre (l : List Char) : ∃ t, (splitFragment l).1 ++ t = l := by
  unfold splitFragment
  cases hsp : splitOnFirst '#' l with
  | none => exact ⟨[], List.append_nil l⟩
  | some pr =>
    obtain ⟨a, b⟩ := pr
    obtain ⟨hl, _⟩ := splitOnFirst_eq_some '#' l a b hsp
    exact ⟨'#' :: b, hl.symm⟩

theorem splitFragment_no_hash (l : List Char) : '#' ∉ (splitFragment l).1 := by
  unfold splitFragment
  cases hsp : splitOnFirst '#' l with
  | none => exact (splitOnFirst_eq_none_iff '#' l).mp hsp
  | some pr =>
    obtain ⟨a, b⟩ := pr
    exact (splitOnFirst_eq_some '#' l a b hsp).2

theorem splitQuery_fst_isPre (l : List Char) : ∃ t, (splitQuery l).1 ++ t = l := by
  unfold splitQuery
  cases hsp : splitOnFirst '?' l with
  | none => exact ⟨[], List.append_nil l⟩
  | some pr =>
    obtain ⟨a, b⟩ := pr
    obtain ⟨hl, _⟩ := splitOnFirst_eq_some '?' l a b hsp
    exact ⟨'?' :: b, hl.symm⟩

theorem splitQuery_no_qmark (l : List Char) : '?' ∉ (splitQuery l).1 := by
  unfold splitQuery
  cases hsp : splitOnFirst '?' l with
  | none => exact (splitOnFirst_eq_none_iff '?' l).mp hsp
  | some pr =>
    obtain ⟨a, b⟩ := pr
    exact (splitOnFirst_eq_some '?' l a b hsp).2

theorem splitQuery_snd_subset (l : List Char) : ∀ c ∈ (splitQuery l).2, c ∈ l := by
  unfold splitQuery
  cases hsp : splitOnFirst '?' l with
  | none => intro c hc; exact absurd hc (List.not_mem_nil c)
  | some pr =>
    obtain ⟨a, b⟩ := pr
    obtain ⟨hl, _⟩ := splitOnFirst_eq_some '?' l a b hsp
    intro c hc
    rw [hl]
    exact List.mem_append.mpr (Or.inr (List.mem_cons_of_mem '?' hc))

theorem rstripSlash_subset (l : List Char) : ∀ c ∈ rstripSlash l, c ∈ l := by
  obtain ⟨t, ht, _⟩ := rstripSlash_decomp l
  intro c hc
  rw [← ht]
  exact List.mem_append.mpr (Or.inl hc)

theorem splitScheme_fst_nil_slash (m : List Char) : (splitScheme ('/' :: m)).1 = [] := by
  rw [splitScheme_fst_nil_iff]
  intro a b hsp
  obtain ⟨a1, ha1⟩ := splitOnFirst_cons_structure ':' '/' m a b (by decide) hsp
  exact validSchemeName_false_of_bad a '/' (ha1 ▸ List.mem_cons_self '/' a1)
    (by decide) (by decide)

theorem preClean_subset (l : List Char) : ∀ c ∈ preClean l, c ∈ l := by
  intro c hc
  unfold preClean at hc
  have h1 := List.mem_of_mem_filter hc
  exact List.IsSuffix.subset (List.dropWhile_suffix isC0OrSpace) h1

theorem preClean_tabfree (l : List Char) : ∀ c ∈ preClean l, isTabCrLf c = false := by
  intro c hc
  unfold preClean at hc
  have := List.of_mem_filter hc
  simpa using this

theorem dropWhile_head_false (p : Char → Bool) (l : List Char) (c : Char) (m : List Char)
    (h : l.dropWhile p = c :: m) : p c = false := by
  apply dropWhile_cons_eq_self p c m
  rw [← h]
  exact dropWhile_dropWhile p l

theorem preClean_head (l : List Char) :
    ∀ c m, preClean l = c :: m → isC0OrSpace c = false := by
  intro c m h
  unfold preClean at h
  cases hd : l.dropWhile isC0OrSpace with
  | nil => rw [hd] at h; exact absurd h (by simp)
  | cons d0 d1 =>
    have hd0 : isC0OrSpace d0 = false := dropWhile_head_false isC0OrSpace l d0 d1 hd
    have hd0t : isTabCrLf d0 = false := by
      rw [isTabCrLf_eq_toNat]
      have : decide (d0.toNat ≤ 32) = false := hd0
      have h32 := of_decide_eq_false this
      exact decide_eq_false (by omega)
    rw [hd, List.filter_cons_of_pos (by simp [hd0t])] at h
    have : d0 = c := List.head_eq_of_cons_eq h
    rw [← this]
    exact hd0

theorem p2_props (p : List Char) (hrs : rstripSlash p = p) :
    ((if p ≠ [] ∧ p.take 1 ≠ ['/'] then '/' :: p else p) = [] ∨
      ∃ m, (if p ≠ [] ∧ p.take 1 ≠ ['/'] then '/' :: p else p) = '/' :: m) ∧
    rstripSlash (if p ≠ [] ∧ p.take 1 ≠ ['/'] then '/' :: p else p) =
      (if p ≠ [] ∧ p.take 1 ≠ ['/'] then '/' :: p else p) ∧
    (∀ c ∈ (if p ≠ [] ∧ p.take 1 ≠ ['/'] then '/' :: p else p), c ∈ p ∨ c = '/') := by
  by_cases hc : p ≠ [] ∧ p.take 1 ≠ ['/']
  · rw [if_pos hc]
    refine ⟨Or.inr ⟨p, rfl⟩, rstripSlash_cons_keep p hrs hc.1, ?_⟩
    intro c hcm
    rcases List.mem_cons.mp hcm with h | h
    · exact Or.inr h
    · exact Or.inl h
  · rw [if_neg hc]
    refine ⟨?_, hrs, fun c hcm => Or.inl hcm⟩
    push_neg at hc
    cases hp0 : p with
    | nil => exact Or.inl rfl
    | cons c0 m0 =>
      right
      have ht1 : p.take 1 = ['/'] := hc (by rw [hp0]; simp)
      rw [hp0] at ht1
      simp only [List.take_succ_cons, List.take_zero, List.cons.injEq, and_true] at ht1
      exact ⟨m0, by rw [ht1]⟩

theorem take2_slash_shape (l : List Char) (h : l.take 2 = ['/', '/']) :
    ∃ r, l = '/' :: '/' :: r := by
  cases l with
  | nil => simp at h
  | cons a m =>
    cases m with
    | nil => simp at h
    | cons b r =>
      simp only [List.take_succ_cons, List.take_zero, List.cons.injEq, and_true] at h
      exact ⟨r, by rw [h.1, h.2]⟩

theorem splitNetloc_yes (r : List Char) :
    splitNetloc ('/' :: '/' :: r) =
      (r.takeWhile (fun c => !netlocDelim c), r.dropWhile (fun c => !netlocDelim c)) := rfl

set_option maxHeartbeats 1000000 in
theorem normalizeUrlL_idem (l : List Char) (hpc : '%' ∉ l) :
    normalizeUrlL (normalizeUrlL l) = normalizeUrlL l := by
  obtain ⟨s, rest1, hsp⟩ : ∃ a b, splitScheme (preClean l) = (a, b) := ⟨_, _, rfl⟩
  obtain ⟨n, rest2, hnp⟩ : ∃ a b, splitNetloc rest1 = (a, b) := ⟨_, _, rfl⟩
  obtain ⟨rest3, frag, hfp⟩ : ∃ a b, splitFragment rest2 = (a, b) := ⟨_, _, rfl⟩
  obtain ⟨p0, q0, hqp⟩ : ∃ a b, splitQuery rest3 = (a, b) := ⟨_, _, rfl⟩
  have hsplit : urlsplitL l = ⟨s, n, p0, q0, frag⟩ := by
    unfold urlsplitL
    simp only [hsp, hnp, hfp, hqp]
  have hLpc : '%' ∉ preClean l := fun h => hpc (preClean_subset l '%' h)
  have hLtab := preClean_tabfree l
  have hsv : s = [] ∨ validSchemeName s = true := by
    have h2 := splitScheme_fst_cases (preClean l)
    rwa [hsp] at h2
  have hslow : toLowerL s = s := by
    have h2 := splitScheme_fst_lower (preClean l)
    rwa [hsp] at h2
  have hschars : ∀ c ∈ s, ∃ c0 ∈ preClean l, pyLower c0 = c := by
    have h2 := splitScheme_fst_chars (preClean l)
    rwa [hsp] at h2
  have hrest1sub : ∀ c ∈ rest1, c ∈ preClean l := by
    have h2 := splitScheme_snd_subset (preClean l)
    rwa [hsp] at h2
  have hdelim : ∀ c ∈ n, netlocDelim c = false := by
    have h2 := splitNetloc_fst_delim rest1
    rwa [hnp] at h2
  have hnsub : ∀ c ∈ n, c ∈ rest1 := by
    have h2 := splitNetloc_fst_subset rest1
    rwa [hnp] at h2
  have hrest2sub : ∀ c ∈ rest2, c ∈ rest1 := by
    have h2 := splitNetloc_snd_subset rest1
    rwa [hnp] at h2
  have hrest3pre : ∃ t, rest3 ++ t = rest2 := by
    have h2 := splitFragment_fst_isPre rest2
    rwa [hfp] at h2
  have hrest3hash : '#' ∉ rest3 := by
    have h2 := splitFragment_no_hash rest2
    rwa [hfp] at h2
  have hp0pre : ∃ t, p0 ++ t = rest3 := by
    have h2 := splitQuery_fst_isPre rest3
    rwa [hqp] at h2
  have hp0q : '?' ∉ p0 := by
    have h2 := splitQuery_no_qmark rest3
    rwa [hqp] at h2
  have hq0sub : ∀ c ∈ q0, c ∈ rest3 := by
    have h2 := splitQuery_snd_subset rest3
    rwa [hqp] at h2
  have hp0sub : ∀ c ∈ p0, c ∈ rest3 := by
    obtain ⟨t, ht⟩ := hp0pre
    exact fun c hc => ht ▸ List.mem_append.mpr (Or.inl hc)
  have hrest3sub : ∀ c ∈ rest3, c ∈ rest2 := by
    obtain ⟨t, ht⟩ := hrest3pre
    exact fun c hc => ht ▸ List.mem_append.mpr (Or.inl hc)
  have hp'sub : ∀ c ∈ rstripSlash p0, c ∈ p0 := rstripSlash_subset p0
  have hp'L : ∀ c ∈ rstripSlash p0, c ∈ preClean l := fun c hc =>
    hrest1sub c (hrest2sub c (hrest3sub c (hp0sub c (hp'sub c hc))))
  have hq0L : ∀ c ∈ q0, c ∈ preClean l := fun c hc =>
    hrest1sub c (hrest2sub c (hrest3sub c (hq0sub c hc)))
  have hnL : ∀ c ∈ n, c ∈ preClean l := fun c hc => hrest1sub c (hnsub c hc)
  have hp'q : '?' ∉ rstripSlash p0 := fun h => hp0q (hp'sub '?' h)
  have hp'h : '#' ∉ rstripSlash p0 := fun h => hrest3hash (hp0sub '#' (hp'sub '#' h))
  have hq0h : '#' ∉ q0 := fun h => hrest3hash (hq0sub '#' h)
  have hp'rs : rstripSlash (rstripSlash p0) = rstripSlash p0 := rstripSlash_idem p0
  have hstab : ∀ c ∈ s, isTabCrLf c = false := by
    intro c hc
    obtain ⟨c0, hc0, he⟩ := hschars c hc
    rw [← he, isTabCrLf_pyLower]
    exact hLtab c0 hc0
  have hspc : '%' ∉ s := by
    intro hm
    obtain ⟨c0, hc0, he⟩ := hschars '%' hm
    rw [pyLower_eq_symbol (by decide) (by decide) c0] at he
    exact hLpc (he ▸ hc0)
  have hC : '%' ∉ urlunsplitL ⟨s, n, rstripSlash p0, q0, []⟩ := by
    intro hm
    rcases mem_urlunsplit s n (rstripSlash p0) q0 '%' hm with h | h | h | h | h | h | h
    · exact hspc h
    · exact hLpc (hnL '%' h)
    · exact hLpc (hp'L '%' h)
    · exact hLpc (hq0L '%' h)
    · exact absurd h (by decide)
    · exact absurd h (by decide)
    · exact absurd h (by decide)
  have hXtab : ∀ c ∈ toLowerL (urlunsplitL ⟨s, n, rstripSlash p0, q0, []⟩),
      isTabCrLf c = false := by
    intro c hc
    rw [mem_toLowerL] at hc
    obtain ⟨c0, hc0, he⟩ := hc
    rw [← he, isTabCrLf_pyLower]
    rcases mem_urlunsplit s n (rstripSlash p0) q0 c0 hc0 with h | h | h | h | h | h | h
    · exact hstab c0 h
    · exact hLtab c0 (hnL c0 h)
    · exact hLtab c0 (hp'L c0 h)
    · exact hLtab c0 (hq0L c0 h)
    · rw [h]; decide
    · rw [h]; decide
    · rw [h]; decide
  have hXpc : '%' ∉ toLowerL (urlunsplitL ⟨s, n, rstripSlash p0, q0, []⟩) := by
    intro hm
    rw [mem_toLowerL] at hm
    obtain ⟨c0, hc0, he⟩ := hm
    rw [pyLower_eq_symbol (by decide) (by decide) c0] at he
    subst he
    exact hC hc0
  have hn1 : normalizeUrlL l =
      toLowerL (unquoteL (urlunsplitL ⟨s, n, rstripSlash p0, q0, []⟩)) := by
    simp only [normalizeUrlL, hsplit]
  have hn2 : normalizeUrlL l = toLowerL (urlunsplitL ⟨s, n, rstripSlash p0, q0, []⟩) := by
    rw [hn1, unquoteL_eq_self _ hC]
  rw [hn2]
  by_cases hbr : n ≠ [] ∨ (rstripSlash p0).take 2 = ['/', '/']
  · have hpp := p2_props (rstripSlash p0) hp'rs
    refine resplit_withnetloc s n (rstripSlash p0) _ q0 hbr rfl hsv hslow hdelim hpp.1
      ?_ ?_ hq0h hpp.2.1 hXtab hXpc
    · intro hm
      rcases hpp.2.2 '?' hm with h | h
      · exact hp'q h
      · exact absurd h (by decide)
    · intro hm
      rcases hpp.2.2 '#' hm with h | h
      · exact hp'h h
      · exact absurd h (by decide)
  · push_neg at hbr
    obtain ⟨hn0, ht2⟩ := hbr
    subst hn0
    have hboth : s = [] → ((splitScheme (rstripSlash p0)).1 = [] ∧
        ∀ c m, rstripSlash p0 = c :: m → isC0OrSpace c = false) := by
      intro hs0
      subst hs0
      have hfst : (splitScheme (preClean l)).1 = [] := by rw [hsp]
      have hr1 : rest1 = preClean l := by
        have h2 := splitScheme_eq_of_fst_nil (preClean l) hfst
        rw [hsp] at h2
        exact congrArg Prod.snd h2
      by_cases hsl2 : rest1.take 2 = ['/', '/']
      · obtain ⟨r, hr⟩ := take2_slash_shape rest1 hsl2
        rw [hr, splitNetloc_yes r] at hnp
        have hrest2 : rest2 = r.dropWhile (fun c => !netlocDelim c) :=
          (congrArg Prod.snd hnp).symm
        have hdisj : rstripSlash p0 = [] ∨ ∃ m0, rstripSlash p0 = '/' :: m0 := by
          cases hp' : rstripSlash p0 with
          | nil => exact Or.inl rfl
          | cons c0 m0 =>
            right
            obtain ⟨t0, ht0, _⟩ := rstripSlash_decomp p0
            rw [hp'] at ht0
            obtain ⟨t1, ht1⟩ := hp0pre
            obtain ⟨t2a, ht2a⟩ := hrest3pre
            have hrest2c : rest2 = c0 :: (m0 ++ t0 ++ t1 ++ t2a) := by
              rw [← ht2a, ← ht1, ← ht0]
              simp [List.append_assoc]
            have hdel : netlocDelim c0 = true := by
              have hh := dropWhile_head_false (fun c => !netlocDelim c) r c0
                (m0 ++ t0 ++ t1 ++ t2a) (by rw [← hrest2]; exact hrest2c)
              simpa using hh
            have hq' : c0 ≠ '?' := by
              intro he
              apply hp'q
              rw [hp', ← he]
              exact List.mem_cons_self c0 m0
            have hh' : c0 ≠ '#' := by
              intro he
              apply hp'h
              rw [hp', ← he]
              exact List.mem_cons_self c0 m0
            have hc0 : c0 = '/' := by
              rw [netlocDelim_eq_toNat] at hdel
              rcases of_decide_eq_true hdel with h47 | h63 | h35
              · exact (char_eq_iff_toNat c0 '/').mpr (by rw [h47]; rfl)
              · exact absurd ((char_eq_iff_toNat c0 '?').mpr (by rw [h63]; rfl)) hq'
              · exact absurd ((char_eq_iff_toNat c0 '#').mpr (by rw [h35]; rfl)) hh'
            exact ⟨m0, by rw [hc0]⟩
        constructor
        · rcases hdisj with h0 | ⟨m0, hm0⟩
          · rw [h0]
            rfl
          · rw [hm0]
            exact splitScheme_fst_nil_slash m0
        · intro c m hcm
          rcases hdisj with h0 | ⟨m0, hm0⟩
          · rw [h0] at hcm
            exact absurd hcm (by simp)
          · rw [hm0] at hcm
            have hcc : '/' = c := List.head_eq_of_cons_eq hcm
            rw [← hcc]
            decide
      · have hrest2 : rest2 = rest1 := by
          have h2 := splitNetloc_no rest1 hsl2
          rw [hnp] at h2
          exact congrArg Prod.snd h2
        have hpre : ∃ t, rstripSlash p0 ++ t = preClean l := by
          obtain ⟨t0, ht0, _⟩ := rstripSlash_decomp p0
          obtain ⟨t1, ht1⟩ := hp0pre
          obtain ⟨t2a, ht2a⟩ := hrest3pre
          refine ⟨t0 ++ t1 ++ t2a, ?_⟩
          rw [← hr1, ← hrest2, ← ht2a, ← ht1]
          conv_rhs => rw [← ht0]
          simp [List.append_assoc]
        constructor
        · exact splitScheme_fst_nil_of_isPre (rstripSlash p0) (preClean l) hpre hfst
        · intro c m hcm
          obtain ⟨t, ht⟩ := hpre
          rw [hcm] at ht
          exact preClean_head l c (m ++ t) (by rw [← ht]; simp)
    exact resplit_nonetloc s (rstripSlash p0) q0 ht2 hsv hslow hp'q hp'h hq0h hp'rs
      (fun h0 => (hboth h0).1) (fun h0 => (hboth h0).2) hXtab hXpc

/-- Claim C8 (amended): `normalize_url` is not idempotent in general —
percent-decoding after reassembly can expose fresh escapes (see the
counterexample) — but it is idempotent on every URL string that
contains no percent character: for all such `u`,
`normalize_url (normalize_url u) = normalize_url u`. -/
theorem c8_amended (u : String) (h : '%' ∉ u.data) :
    normalize_url (normalize_url u) = normalize_url u :=
  congrArg (fun l => (⟨l⟩ : String)) (normalizeUrlL_idem u.data h)

theorem c8_amended_witness :
    '%' ∉ ("http://Ex.com/A/?Q=z#f").data ∧
      normalize_url (normalize_url "http://Ex.com/A/?Q=z#f") =
        normalize_url "http://Ex.com/A/?Q=z#f" :=
  ⟨by decide, c8_amended "http://Ex.com/A/?Q=z#f" (by decide)⟩

theorem c2_amended_witness :
    deadShape envW2 ("http://w2.com", "Timeout - t") :=
  c2_amended envW2 "w2.com" 1 "http://w2.com"
    ⟨[], ["http://w2.com"], [], [("http://w2.com", "Timeout - t")], [Phase.idle],
      ["http://w2.com"]⟩
    (Relation.ReflTransGen.head
      (Step.claimNew _ 0 "http://w2.com" [] rfl (by decide) (by decide))
      (Relation.ReflTransGen.head
        (Step.fetchErr _ 0 "http://w2.com" "Timeout" "t" rfl rfl)
        Relation.ReflTransGen.refl))
    ("http://w2.com", "Timeout - t") (by decide)
